import Mathlib

/-!
# HeavenHell: hub-driven threshold propagation on a weighted directed graph

A shallow embedding of `src/main.cpp`.

Modelling conventions.

* `std::vector<T>` is a `List T`; `operator[]` reads are `Graph.w` / `rd`, writes are `List.set`.
  The source performs no bounds checks, so reads and writes outside a vector are undefined
  there; the theorems below are stated for state vectors of length `V` and vertices in `[0,V)`.
* C++ `int` weights and scores are `Int`, and every `int` addition of the accumulating loops
  of `score` and `rest_weight` is reduced to the 32-bit two's-complement range by `wrap32`, as
  the compiled program does (signed overflow is undefined in the language itself). Theorems
  about the exact sums assume that the absolute values of the weights of a column add up to at
  most `INT_MAX` (`col_abs`, `Graph.Fits`); then no addition leaves the range. With the
  constants of `main` a column adds up to at most `150 + 49 * 10`.
* Vertex indices and vertex counts are `Nat`.
* The loops of `main` work on the constants `NUM_VERTICES` and `HUB_NODE` and on the local
  `initial_state`; here they are functions of the graph (whose `num_vertices` is `NUM_VERTICES`),
  of the hub index and of the vector they start from.
* The quotient `(double)glory_count / (NUM_VERTICES - 1)` is taken in `ℚ`, and so is
  `(double)successful_trials / ASYNC_TRIALS`.
* The orders produced by `std::shuffle` are an input: a list of orders per sweep step, one per
  trial.
* The sweep loop `for (int W = 0; W <= SWEEP_W_MAX; ++W)` has both bounds as parameters.
-/

namespace HeavenHell

/-! ## Data model -/

/-- Source: `enum class State { Glory, Gnash }`. -/
inductive State where
  | Glory
  | Gnash
  deriving DecidableEq, Repr

/-- Source: `struct Graph { int num_vertices; std::vector<std::vector<int>> weights; }`. -/
structure Graph where
  num_vertices : Nat
  weights : List (List Int)
  deriving DecidableEq, Repr

/-- Source: the constructor `Graph(int n)`, an `n × n` matrix of zeros. -/
def Graph.new (n : Nat) : Graph :=
  ⟨n, List.replicate n (List.replicate n 0)⟩

/-- Source: `using StateF = std::vector<State>`. -/
abbrev StateF := List State

/-- The read `graph.weights[u][v]`. -/
def Graph.w (graph : Graph) (u v : Nat) : Int :=
  (graph.weights.getD u []).getD v 0

/-- The read `s[u]` of a state vector. -/
def rd (s : StateF) (u : Nat) : State :=
  s.getD u State.Gnash

/-- The write `graph.weights[u][v] = x`. -/
def Graph.setW (graph : Graph) (u v : Nat) (x : Int) : Graph :=
  { graph with weights := graph.weights.set u ((graph.weights.getD u []).set v x) }

/-- The shape the constructor establishes and no write changes: a square
`num_vertices × num_vertices` matrix. -/
def Graph.WF (graph : Graph) : Prop :=
  graph.weights.length = graph.num_vertices ∧
    ∀ row ∈ graph.weights, row.length = graph.num_vertices

instance (graph : Graph) : Decidable graph.WF := by
  unfold Graph.WF
  exact inferInstance

/-- All weights of the matrix are non-negative. -/
def Graph.NonNeg (graph : Graph) : Prop :=
  ∀ row ∈ graph.weights, ∀ x ∈ row, (0 : Int) ≤ x

instance (graph : Graph) : Decidable graph.NonNeg := by
  unfold Graph.NonNeg
  exact inferInstance

/-! ## Machine integers -/

/-- The least value of the 32-bit `int` of the source. -/
def INT_MIN : Int := -2147483648

/-- The greatest value of the 32-bit `int` of the source. -/
def INT_MAX : Int := 2147483647

/-- The value an `int` holds after an operation whose exact result is `x`: `x` reduced to the
32-bit two's-complement range. -/
def wrap32 (x : Int) : Int :=
  (x + 2147483648) % 4294967296 - 2147483648

/-- Every weight of the matrix is a value of `int`. -/
def Graph.IntWeights (graph : Graph) : Prop :=
  ∀ row ∈ graph.weights, ∀ x ∈ row, INT_MIN ≤ x ∧ x ≤ INT_MAX

instance (graph : Graph) : Decidable graph.IntWeights := by
  unfold Graph.IntWeights
  exact inferInstance

/-- The absolute values of the weights of column `v`, added up over `u` in `[0,V)`; for
non-negative weights this is the column total. -/
def col_abs (graph : Graph) (v : Nat) : Int :=
  (List.range graph.num_vertices).foldl (fun acc u => acc + ((graph.w u v).natAbs : Int)) 0

/-- Every column of the graph adds up, in absolute value, to at most `INT_MAX`: no sum of
weights of one column leaves the range of `int`. -/
def Graph.Fits (graph : Graph) : Prop :=
  ∀ v, v < graph.num_vertices → col_abs graph v ≤ INT_MAX

instance (graph : Graph) : Decidable graph.Fits := by
  unfold Graph.Fits
  exact inferInstance

/-! ## The transition rule -/

/-- Source: `score` (lines 43-49): the loop over `u` accumulating
`weights[u][v] * ((s[u] == x) ? 1 : 0)` into the `int total_score`. -/
def score (s : StateF) (x : State) (v : Nat) (graph : Graph) : Int :=
  (List.range graph.num_vertices).foldl
    (fun total_score u =>
      wrap32 (total_score + graph.w u v * (if rd s u = x then 1 else 0))) 0

/-- Source: `force_g` (lines 52-56): copy `s` and overwrite the hub entry with `Glory`. -/
def force_g (s : StateF) (g_node : Nat) : StateF :=
  s.set g_node State.Glory

/-- Source: `next_heaven` (lines 59-71). -/
def next_heaven (s : StateF) (v : Nat) (graph : Graph) (g_node : Nat) : State :=
  if v = g_node then State.Glory
  else
    let s_prime := force_g s g_node
    let score_glory := score s_prime State.Glory v graph
    let score_gnash := score s_prime State.Gnash v graph
    if score_glory < score_gnash then State.Gnash else State.Glory

/-- Source: `rest_weight` (lines 74-81): the loop over `u` that skips the hub and accumulates
into the `int total_weight`. -/
def rest_weight (v : Nat) (graph : Graph) (g_node : Nat) : Int :=
  (List.range graph.num_vertices).foldl
    (fun total_weight u =>
      if u = g_node then total_weight else wrap32 (total_weight + graph.w u v)) 0

/-- Source: `hub_weight` (lines 84-86). -/
def hub_weight (v : Nat) (graph : Graph) (g_node : Nat) : Int :=
  graph.w g_node v

/-! ## The driver loops of `main` -/

/-- Source: `main`, lines 116-123: the running maximum of `rest_weight` over the non-hub
vertices, started at `0`. -/
def max_rest (graph : Graph) (g_node : Nat) : Int :=
  (List.range graph.num_vertices).foldl
    (fun m v =>
      if v = g_node then m
      else
        let rw := rest_weight v graph g_node
        if rw > m then rw else m) 0

/-- Source: `main`, lines 131-135: `weights[HUB_NODE][v] = W` for every `v != HUB_NODE`. -/
def set_hub_row (graph : Graph) (g_node : Nat) (W : Int) : Graph :=
  (List.range graph.num_vertices).foldl
    (fun gr v => if v ≠ g_node then gr.setW g_node v W else gr) graph

/-- Source: `main`, lines 139-140: every entry `Gnash`, then the hub entry `Glory`. -/
def initial_state (num_vertices g_node : Nat) : StateF :=
  (List.replicate num_vertices State.Gnash).set g_node State.Glory

/-- One iteration of the synchronous loop (lines 145-149) on the pair
`(next_sync_state, glory_count)`. -/
def sync_body (s0 : StateF) (graph : Graph) (g_node : Nat)
    (acc : StateF × Nat) (v : Nat) : StateF × Nat :=
  if v = g_node then acc
  else
    let next_sync_state := acc.1.set v (next_heaven s0 v graph g_node)
    (next_sync_state, if rd next_sync_state v = State.Glory then acc.2 + 1 else acc.2)

/-- Source: `main`, lines 142-150: the synchronous step started from the copy of `s0`,
returning `(next_sync_state, glory_count)`. -/
def sync_step (s0 : StateF) (graph : Graph) (g_node : Nat) : StateF × Nat :=
  (List.range graph.num_vertices).foldl (sync_body s0 graph g_node) (s0, 0)

/-- Source: `main`, line 151: `(double)glory_count / (NUM_VERTICES - 1)`. -/
def percent_glory_sync (s0 : StateF) (graph : Graph) (g_node : Nat) : ℚ :=
  ((sync_step s0 graph g_node).2 : ℚ) / (((graph.num_vertices : Int) - 1 : Int) : ℚ)

/-- Source: `main`, lines 157-159: the non-hub vertices in increasing order. -/
def non_hubs (num_vertices g_node : Nat) : List Nat :=
  (List.range num_vertices).filter (fun i => i ≠ g_node)

/-- Source: `main`, lines 165-170: the asynchronous pass over `order` (the shuffled
`non_hubs`), each result written back before the next vertex is evaluated. -/
def async_pass (s0 : StateF) (order : List Nat) (graph : Graph) (g_node : Nat) : StateF :=
  order.foldl (fun async_state v => async_state.set v (next_heaven async_state v graph g_node)) s0

/-- Source: `main`, lines 172-178: whether every vertex of `order` ended in `Glory`. -/
def all_glory (async_state : StateF) (order : List Nat) : Bool :=
  order.all (fun v => decide (rd async_state v = State.Glory))

/-- The graph as it stands inside iteration `W` of the sweep (`main`, line 129): the hub row
has been overwritten in turn for `0, 1, ..., W`. -/
def graph_at_step (graph : Graph) (g_node : Nat) (W : Nat) : Graph :=
  (List.range (W + 1)).foldl (fun gr W' => set_hub_row gr g_node (W' : Int)) graph

/-! ## The asynchronous trials and the sweep -/

/-- Source: `main`, line 151: the divisor `NUM_VERTICES - 1` of the synchronous fraction. -/
def glory_divisor (graph : Graph) : Int :=
  (graph.num_vertices : Int) - 1

/-- Source: `main`, lines 155-182: the number of trials whose pass ends with every vertex of
its order in `Glory`. `orders` holds, trial by trial, the order `std::shuffle` left in
`non_hubs`; its length is `ASYNC_TRIALS`. -/
def successful_trials (s0 : StateF) (orders : List (List Nat)) (graph : Graph)
    (g_node : Nat) : Nat :=
  orders.foldl
    (fun successful order =>
      if all_glory (async_pass s0 order graph g_node) order then successful + 1
      else successful) 0

/-- Source: `main`, line 183: `(double)successful_trials / ASYNC_TRIALS`. -/
def success_prob_async (s0 : StateF) (orders : List (List Nat)) (graph : Graph)
    (g_node : Nat) : ℚ :=
  (successful_trials s0 orders graph g_node : ℚ) / ((orders.length : Int) : ℚ)

/-- One line of the output (`main`, line 186). -/
structure Record where
  W : Int
  max_rest : Int
  percent_glory_sync : ℚ
  success_prob_async : ℚ
  deriving DecidableEq

/-- Source: `main`, lines 130-186: the body of the sweep loop on the pair (graph, lines
printed so far). `mr` is the `max_rest` computed before the loop and `shuffles W` the orders
drawn in iteration `W`. -/
def sweep_body (g_node : Nat) (mr : Int) (shuffles : Int → List (List Nat))
    (st : Graph × List Record) (W : Int) : Graph × List Record :=
  let graph := set_hub_row st.1 g_node W
  let s0 := initial_state graph.num_vertices g_node
  (graph, st.2 ++ [⟨W, mr, percent_glory_sync s0 graph g_node,
    success_prob_async s0 (shuffles W) graph g_node⟩])

/-- Source: `main`, line 129: `for (int W = ...; W <= SWEEP_W_MAX; ++W)`, the upper bound a
parameter. The loop tests `W <= w_max` before every iteration; `fuel` bounds the number of
iterations. -/
def sweep_loop (g_node : Nat) (mr : Int) (shuffles : Int → List (List Nat)) (w_max : Int) :
    Nat → Int → Graph × List Record → Graph × List Record
  | 0, _, st => st
  | fuel + 1, W, st =>
    if W ≤ w_max then
      sweep_loop g_node mr shuffles w_max fuel (W + 1) (sweep_body g_node mr shuffles st W)
    else st

/-- Source: `main`, lines 116-187: `max_rest` is computed once, then the loop runs from
`w_min` (the literal `0` in the source) to `w_max` (`SWEEP_W_MAX`) and the lines printed are
returned. The fuel is the number of integers in `[w_min, w_max]`. -/
def sweep (graph : Graph) (g_node : Nat) (w_min w_max : Int)
    (shuffles : Int → List (List Nat)) : List Record :=
  (sweep_loop g_node (max_rest graph g_node) shuffles w_max (w_max + 1 - w_min).toNat w_min
    (graph, [])).2

/-! ## The transition rule with every read checked

The source indexes its vectors with the unchecked `operator[]`. The functions below follow
`score`, `force_g` and `next_heaven` read by read and return `none` as soon as one index lies
outside its vector, where the behaviour of the source is undefined (nothing is detected or
reported there). -/

/-- The read `graph.weights[u][v]`, `none` when `u` or `v` is outside its vector. -/
def Graph.w? (graph : Graph) (u v : Nat) : Option Int :=
  match graph.weights[u]? with
  | some row => row[v]?
  | none => none

/-- Source: `score` (lines 43-49), reads checked. -/
def score_chk (s : StateF) (x : State) (v : Nat) (graph : Graph) : Option Int :=
  (List.range graph.num_vertices).foldlM
    (fun total_score u =>
      match graph.w? u v, s[u]? with
      | some w, some su => some (wrap32 (total_score + w * (if su = x then 1 else 0)))
      | _, _ => none) 0

/-- Source: `force_g` (lines 52-56), the write checked. -/
def force_g_chk (s : StateF) (g_node : Nat) : Option StateF :=
  if g_node < s.length then some (s.set g_node State.Glory) else none

/-- Source: `next_heaven` (lines 59-71), reads and writes checked. -/
def next_heaven_chk (s : StateF) (v : Nat) (graph : Graph) (g_node : Nat) : Option State :=
  if v = g_node then some State.Glory
  else
    match force_g_chk s g_node with
    | none => none
    | some s_prime =>
      match score_chk s_prime State.Glory v graph, score_chk s_prime State.Gnash v graph with
      | some score_glory, some score_gnash =>
        some (if score_glory < score_gnash then State.Gnash else State.Glory)
      | _, _ => none

/-! ## Concrete graphs used in the scenarios -/

/-- Three vertices, hub `0`, `w[1][2] = 5` and `w[0][2] = W`. -/
def tieGraph (W : Int) : Graph :=
  ⟨3, [[0, 0, W], [0, 0, 5], [0, 0, 0]]⟩

/-- Three vertices, hub `0`, `w[0][1] = w[0][2] = 3`, `w[2][1] = 1`, `w[1][2] = 5`. -/
def orderGraph : Graph :=
  ⟨3, [[0, 3, 3], [0, 0, 5], [0, 1, 0]]⟩

/-- Three vertices, hub `0`, `w[1][2] = 3`, `w[2][1] = 3`, every other weight zero. -/
def pairGraph : Graph :=
  ⟨3, [[0, 0, 0], [0, 0, 3], [0, 3, 0]]⟩

/-- Three vertices, hub `0`, `w[0][1] = W` and `w[2][1] = 1`, every other weight zero. -/
def edgeGraph (W : Int) : Graph :=
  ⟨3, [[0, W, 0], [0, 0, 0], [0, 1, 0]]⟩

/-- Three vertices, hub `0`, hub row `INT_MAX`, `w[2][1] = 1`, every other weight zero. -/
def hubMaxGraph : Graph :=
  ⟨3, [[0, 2147483647, 2147483647], [0, 0, 0], [0, 1, 0]]⟩

/-- Three vertices, hub `0`, hub row `INT_MAX`, `w[1][2] = 1`, every other weight zero. -/
def hubMaxChainGraph : Graph :=
  ⟨3, [[0, 2147483647, 2147483647], [0, 0, 1], [0, 0, 0]]⟩

/-- Three vertices, hub `0`, `w[1][1] = w[2][2] = 1` and `w[1][2] = w[2][1] = INT_MAX`. -/
def restMaxGraph : Graph :=
  ⟨3, [[0, 0, 0], [0, 1, 2147483647], [0, 2147483647, 1]]⟩

/-! ## The contract of `score`, in the words of the specification -/

/-- The sum over all `u` in `[0,V)` of `w[u][v]` where `s[u] == x`, else `0`. -/
def score_spec (s : StateF) (x : State) (v : Nat) (graph : Graph) : Int :=
  ∑ u ∈ Finset.range graph.num_vertices, if s[u]? = some x then graph.w u v else 0

/-! ## Checks on small inputs -/

example : score [State.Glory, State.Gnash, State.Gnash] State.Gnash 2
    ⟨3, [[0, 0, 4], [0, 0, 5], [0, 0, 0]]⟩ = 5 := by decide

example : next_heaven [State.Glory, State.Gnash, State.Gnash] 2
    ⟨3, [[0, 0, 4], [0, 0, 5], [0, 0, 0]]⟩ 0 = State.Gnash := by decide

example : (set_hub_row (Graph.new 3) 0 7).weights = [[0, 7, 7], [0, 0, 0], [0, 0, 0]] := by
  decide

example : score_chk [State.Glory, State.Gnash, State.Gnash] State.Gnash 2 (tieGraph 4)
    = some 5 := by decide

example : score_chk [State.Glory, State.Gnash, State.Gnash] State.Gnash 3 (tieGraph 4)
    = none := by decide

example : next_heaven_chk [State.Glory, State.Gnash, State.Gnash] 2 (tieGraph 4) 0
    = some State.Gnash := by decide

example : (sweep pairGraph 0 2 3 (fun _ => [[1, 2], [2, 1]])).map (fun r => r.W) = [2, 3] := by
  decide

example : successful_trials (initial_state 3 0) [[1, 2], [2, 1]] orderGraph 0 = 1 := by
  decide

example : wrap32 (2147483647 + 1) = -2147483648 := by decide

example : score [State.Glory, State.Glory, State.Glory] State.Glory 1 (edgeGraph 2147483647)
    = -2147483648 := by decide

example : rest_weight 1 restMaxGraph 0 = -2147483648 := by decide

example : orderGraph.Fits ∧ pairGraph.Fits ∧ ¬ hubMaxGraph.Fits := by decide

/-! ## Auxiliary lemmas: reads, writes and accumulating loops -/

theorem rd_eq_iff {s : StateF} {u : Nat} (hu : u < s.length) (x : State) :
    rd s u = x ↔ s[u]? = some x := by
  simp [rd, List.getD, List.getElem?_eq_getElem hu]

theorem rd_set_self {s : StateF} {u : Nat} (hu : u < s.length) (x : State) :
    rd (s.set u x) u = x := by
  simp [rd, List.getD, List.getElem?_set, hu]

theorem rd_set_ne (s : StateF) {u i : Nat} (h : u ≠ i) (x : State) :
    rd (s.set u x) i = rd s i := by
  simp [rd, List.getD, List.getElem?_set, h]

theorem foldl_add_eq_sum (f : Nat → Int) (a : Int) (n : Nat) :
    (List.range n).foldl (fun acc u => acc + f u) a = a + ∑ u ∈ Finset.range n, f u := by
  induction n with
  | zero => simp
  | succ n ih =>
    rw [List.range_succ, List.foldl_append, ih, Finset.sum_range_succ]
    simp [add_assoc]

theorem wrap32_of_range {x : Int} (h1 : INT_MIN ≤ x) (h2 : x ≤ INT_MAX) : wrap32 x = x := by
  unfold INT_MIN at h1
  unfold INT_MAX at h2
  unfold wrap32
  omega

theorem wrap32_range (x : Int) : INT_MIN ≤ wrap32 x ∧ wrap32 x ≤ INT_MAX := by
  unfold INT_MIN INT_MAX wrap32
  omega

theorem wrap32_idem (x : Int) : wrap32 (wrap32 x) = wrap32 x :=
  wrap32_of_range (wrap32_range x).1 (wrap32_range x).2

theorem natAbs_bounds (w : Int) : -(w.natAbs : Int) ≤ w ∧ w ≤ (w.natAbs : Int) := by
  omega

theorem foldl_exact (step : Int → Nat → Int) (f m : Nat → Int) (N : Nat)
    (hstep : ∀ t u, u < N → INT_MIN ≤ t + f u → t + f u ≤ INT_MAX → step t u = t + f u)
    (hf : ∀ u, u < N → -m u ≤ f u ∧ f u ≤ m u)
    (hN : ∑ u ∈ Finset.range N, m u ≤ INT_MAX) (n : Nat) (hn : n ≤ N) :
    (List.range n).foldl step 0 = ∑ u ∈ Finset.range n, f u
      ∧ -(∑ u ∈ Finset.range n, m u) ≤ ∑ u ∈ Finset.range n, f u
      ∧ ∑ u ∈ Finset.range n, f u ≤ ∑ u ∈ Finset.range n, m u := by
  induction n with
  | zero => simp
  | succ n ih =>
    obtain ⟨ihf, ihlo, ihhi⟩ := ih (Nat.le_of_succ_le hn)
    have hfn := hf n (by omega)
    have hmono : ∑ u ∈ Finset.range (n + 1), m u ≤ ∑ u ∈ Finset.range N, m u := by
      apply Finset.sum_le_sum_of_subset_of_nonneg
      · exact Finset.range_mono hn
      · intro u hu _
        have := hf u (Finset.mem_range.mp hu)
        omega
    rw [Finset.sum_range_succ] at hmono
    rw [List.range_succ, List.foldl_append, Finset.sum_range_succ, Finset.sum_range_succ]
    simp only [List.foldl_cons, List.foldl_nil]
    rw [ihf]
    have hlo : INT_MIN ≤ ∑ u ∈ Finset.range n, f u + f n := by
      unfold INT_MIN
      unfold INT_MAX at hN
      omega
    have hhi : ∑ u ∈ Finset.range n, f u + f n ≤ INT_MAX := by omega
    exact ⟨hstep _ n (by omega) hlo hhi, by omega, by omega⟩
theorem col_abs_eq_sum (graph : Graph) (v : Nat) :
    col_abs graph v = ∑ u ∈ Finset.range graph.num_vertices, ((graph.w u v).natAbs : Int) := by
  unfold col_abs
  rw [foldl_add_eq_sum (fun u => ((graph.w u v).natAbs : Int))]
  simp

theorem score_eq_sum_rd (s : StateF) (x : State) (v : Nat) (graph : Graph)
    (hfit : col_abs graph v ≤ INT_MAX) :
    score s x v graph
      = ∑ u ∈ Finset.range graph.num_vertices, if rd s u = x then graph.w u v else 0 := by
  rw [col_abs_eq_sum] at hfit
  have h := (foldl_exact
    (fun total_score u => wrap32 (total_score + graph.w u v * (if rd s u = x then 1 else 0)))
    (fun u => if rd s u = x then graph.w u v else 0)
    (fun u => ((graph.w u v).natAbs : Int)) graph.num_vertices
    (by
      intro t u _ h1 h2
      by_cases hx : rd s u = x
      · simp only [if_pos hx, mul_one] at h1 h2 ⊢
        exact wrap32_of_range h1 h2
      · simp only [if_neg hx, mul_zero] at h1 h2 ⊢
        exact wrap32_of_range h1 h2)
    (by
      intro u _
      show -((graph.w u v).natAbs : Int) ≤ (if rd s u = x then graph.w u v else 0)
        ∧ (if rd s u = x then graph.w u v else 0) ≤ ((graph.w u v).natAbs : Int)
      by_cases hx : rd s u = x
      · rw [if_pos hx]
        omega
      · rw [if_neg hx]
        omega)
    hfit graph.num_vertices (le_refl _)).1
  exact h

theorem Graph.w_nonneg {graph : Graph} (h : graph.NonNeg) (u v : Nat) : 0 ≤ graph.w u v := by
  unfold Graph.w
  by_cases hu : u < graph.weights.length
  · rw [List.getD_eq_getElem _ _ hu]
    by_cases hv : v < (graph.weights[u]).length
    · rw [List.getD_eq_getElem _ _ hv]
      exact h _ (List.getElem_mem hu) _ (List.getElem_mem hv)
    · rw [List.getD_eq_default _ _ (Nat.le_of_not_lt hv)]
  · rw [List.getD_eq_default _ _ (Nat.le_of_not_lt hu)]
    simp

theorem foldl_skip_eq_sum (f : Nat → Int) (g : Nat) (a : Int) (n : Nat) :
    (List.range n).foldl (fun acc u => if u = g then acc else acc + f u) a
      = a + ∑ u ∈ Finset.range n, if u = g then 0 else f u := by
  rw [← foldl_add_eq_sum]
  congr 1
  funext acc u
  split <;> simp

theorem foldl_max_bounds (f : Nat → Int) (g : Nat) (m0 : Int) (n : Nat) :
    m0 ≤ (List.range n).foldl (fun m v => if v = g then m else if f v > m then f v else m) m0
      ∧ ∀ v, v < n → v ≠ g →
        f v ≤ (List.range n).foldl (fun m v => if v = g then m else if f v > m then f v else m) m0 := by
  induction n with
  | zero => simp
  | succ n ih =>
    rw [List.range_succ, List.foldl_append]
    simp only [List.foldl_cons, List.foldl_nil]
    obtain ⟨h0, hall⟩ := ih
    constructor
    · split
      · exact h0
      · split <;> omega
    · intro v hv hne
      rcases Nat.lt_succ_iff_lt_or_eq.mp hv with hlt | heq
      · have := hall v hlt hne
        split
        · exact this
        · split <;> omega
      · subst heq
        rw [if_neg hne]
        split <;> omega

theorem countP_ne_range (g n : Nat) :
    (List.range n).countP (fun v => decide (v ≠ g)) = if g < n then n - 1 else n := by
  induction n with
  | zero => simp
  | succ n ih =>
    rw [List.range_succ, List.countP_append, ih]
    by_cases h1 : g < n
    · have : n ≠ g := by omega
      simp [h1, this, Nat.lt_succ_of_lt h1]
      omega
    · by_cases h2 : n = g
      · subst h2
        simp
      · have : ¬ g < n + 1 := by omega
        simp [h1, h2, this]
theorem rest_weight_eq_sum (v : Nat) (graph : Graph) (g_node : Nat)
    (hfit : col_abs graph v ≤ INT_MAX) :
    rest_weight v graph g_node
      = ∑ u ∈ Finset.range graph.num_vertices, if u = g_node then 0 else graph.w u v := by
  rw [col_abs_eq_sum] at hfit
  have h := (foldl_exact
    (fun total_weight u =>
      if u = g_node then total_weight else wrap32 (total_weight + graph.w u v))
    (fun u => if u = g_node then 0 else graph.w u v)
    (fun u => ((graph.w u v).natAbs : Int)) graph.num_vertices
    (by
      intro t u _ h1 h2
      by_cases hu : u = g_node
      · simp only [if_pos hu, add_zero]
      · simp only [if_neg hu] at h1 h2 ⊢
        exact wrap32_of_range h1 h2)
    (by
      intro u _
      show -((graph.w u v).natAbs : Int) ≤ (if u = g_node then 0 else graph.w u v)
        ∧ (if u = g_node then 0 else graph.w u v) ≤ ((graph.w u v).natAbs : Int)
      by_cases hu : u = g_node
      · rw [if_pos hu]
        omega
      · rw [if_neg hu]
        omega)
    hfit graph.num_vertices (le_refl _)).1
  exact h

theorem rest_weight_le_max_rest (graph : Graph) (g_node v : Nat)
    (hv : v < graph.num_vertices) (hne : v ≠ g_node) :
    rest_weight v graph g_node ≤ max_rest graph g_node :=
  (foldl_max_bounds (fun v => rest_weight v graph g_node) g_node 0 graph.num_vertices).2 v hv hne

theorem rd_force_g_hub {s : StateF} {g_node : Nat} (hg : g_node < s.length) :
    rd (force_g s g_node) g_node = State.Glory :=
  rd_set_self hg State.Glory

theorem sync_fold_inv (s0 : StateF) (graph : Graph) (g_node : Nat) (n : Nat)
    (hn : n ≤ s0.length) :
    ((List.range n).foldl (sync_body s0 graph g_node) (s0, 0)).1.length = s0.length
      ∧ (∀ v, v < n → v ≠ g_node →
          ((List.range n).foldl (sync_body s0 graph g_node) (s0, 0)).1[v]?
            = some (next_heaven s0 v graph g_node))
      ∧ (∀ v, (n ≤ v ∨ v = g_node) →
          ((List.range n).foldl (sync_body s0 graph g_node) (s0, 0)).1[v]? = s0[v]?)
      ∧ ((List.range n).foldl (sync_body s0 graph g_node) (s0, 0)).2
          = (List.range n).countP
              (fun v => decide (v ≠ g_node ∧ next_heaven s0 v graph g_node = State.Glory)) := by
  induction n with
  | zero => simp
  | succ n ih =>
    obtain ⟨hlen, hset, hkeep, hcnt⟩ := ih (Nat.le_of_succ_le hn)
    rw [List.range_succ, List.foldl_append, List.countP_append]
    simp only [List.foldl_cons, List.foldl_nil]
    generalize (List.range n).foldl (sync_body s0 graph g_node) (s0, 0) = r at hlen hset hkeep hcnt
    by_cases hng : n = g_node
    · have hbody : sync_body s0 graph g_node r n = r := by simp [sync_body, hng]
      rw [hbody]
      refine ⟨hlen, ?_, ?_, ?_⟩
      · intro v hv hne
        exact hset v (by omega) hne
      · intro v hv
        exact hkeep v (by omega)
      · rw [hcnt]
        simp [hng]
    · have hlt : n < r.1.length := by omega
      have hbody : sync_body s0 graph g_node r n
          = (r.1.set n (next_heaven s0 n graph g_node),
              if next_heaven s0 n graph g_node = State.Glory then r.2 + 1 else r.2) := by
        simp [sync_body, hng, rd_set_self hlt]
      rw [hbody]
      refine ⟨by simpa using hlen, ?_, ?_, ?_⟩
      · intro v hv hne
        by_cases hvn : v = n
        · subst hvn
          simp [List.getElem?_set, hlt]
        · simp only [List.getElem?_set, if_neg (Ne.symm hvn)]
          exact hset v (by omega) hne
      · intro v hv
        have hvn : n ≠ v := by omega
        simp only [List.getElem?_set, if_neg hvn]
        exact hkeep v (by omega)
      · simp only [hcnt]
        by_cases hG : next_heaven s0 n graph g_node = State.Glory <;> simp [hG, hng]

theorem next_heaven_glory_iff (s : StateF) (v : Nat) (graph : Graph) (g_node : Nat)
    (hne : v ≠ g_node) :
    next_heaven s v graph g_node = State.Glory
      ↔ score (force_g s g_node) State.Gnash v graph
          ≤ score (force_g s g_node) State.Glory v graph := by
  simp only [next_heaven, if_neg hne]
  split
  · simp only [reduceCtorEq, false_iff]
    omega
  · simp only [true_iff]
    omega

theorem hub_weight_le_score_glory (s : StateF) (v : Nat) (graph : Graph) (g_node : Nat)
    (hnn : graph.NonNeg) (hfit : col_abs graph v ≤ INT_MAX) (hg : g_node < graph.num_vertices)
    (hgs : g_node < s.length) :
    graph.w g_node v ≤ score (force_g s g_node) State.Glory v graph := by
  rw [score_eq_sum_rd _ _ _ _ hfit]
  have hterm : graph.w g_node v
      = (fun u => if rd (force_g s g_node) u = State.Glory then graph.w u v else 0) g_node := by
    simp [rd_force_g_hub hgs]
  rw [hterm]
  apply Finset.single_le_sum (f := fun u =>
    if rd (force_g s g_node) u = State.Glory then graph.w u v else 0)
  · intro u _
    split
    · exact Graph.w_nonneg hnn u v
    · exact le_refl 0
  · exact Finset.mem_range.mpr hg

theorem score_gnash_le_rest_weight (s : StateF) (v : Nat) (graph : Graph) (g_node : Nat)
    (hnn : graph.NonNeg) (hfit : col_abs graph v ≤ INT_MAX) (hgs : g_node < s.length) :
    score (force_g s g_node) State.Gnash v graph ≤ rest_weight v graph g_node := by
  rw [score_eq_sum_rd _ _ _ _ hfit, rest_weight_eq_sum _ _ _ hfit]
  apply Finset.sum_le_sum
  intro u _
  by_cases hu : u = g_node
  · subst hu
    simp [rd_force_g_hub hgs]
  · rw [if_neg hu]
    split
    · exact le_refl _
    · exact Graph.w_nonneg hnn u v

theorem next_heaven_glory_of_dominant (s : StateF) (v : Nat) (graph : Graph) (g_node : Nat)
    (hnn : graph.NonNeg) (hfit : col_abs graph v ≤ INT_MAX) (hg : g_node < graph.num_vertices)
    (hs : s.length = graph.num_vertices)
    (hne : v ≠ g_node) (hdom : rest_weight v graph g_node ≤ graph.w g_node v) :
    next_heaven s v graph g_node = State.Glory := by
  have hgs : g_node < s.length := by omega
  rw [next_heaven_glory_iff s v graph g_node hne]
  have h1 := hub_weight_le_score_glory s v graph g_node hnn hfit hg hgs
  have h2 := score_gnash_le_rest_weight s v graph g_node hnn hfit hgs
  omega

/-! ### Graphs whose columns fit in `int` -/

theorem Graph.w_int {graph : Graph} (h : graph.IntWeights) (u v : Nat) :
    INT_MIN ≤ graph.w u v ∧ graph.w u v ≤ INT_MAX := by
  unfold Graph.w
  by_cases hu : u < graph.weights.length
  · rw [List.getD_eq_getElem _ _ hu]
    by_cases hv : v < (graph.weights[u]).length
    · rw [List.getD_eq_getElem _ _ hv]
      exact h _ (List.getElem_mem hu) _ (List.getElem_mem hv)
    · rw [List.getD_eq_default _ _ (Nat.le_of_not_lt hv)]
      unfold INT_MIN INT_MAX
      omega
  · rw [List.getD_eq_default _ _ (Nat.le_of_not_lt hu)]
    simp only [List.getD_nil]
    unfold INT_MIN INT_MAX
    omega

/-- A graph whose weights are bounded by `B` in absolute value, with `V * B ≤ INT_MAX`, fits.
With the constants of `main` (`V = 50`, non-hub weights at most `10`, hub weights at most
`SWEEP_W_MAX = 150`) one may take `B = 150`: `50 * 150 = 7500`. -/
theorem Graph.fits_of_bounded (graph : Graph) (B : Int)
    (hB : ∀ u v, ((graph.w u v).natAbs : Int) ≤ B)
    (hVB : (graph.num_vertices : Int) * B ≤ INT_MAX) : graph.Fits := by
  intro v _
  rw [col_abs_eq_sum]
  have h : ∑ u ∈ Finset.range graph.num_vertices, ((graph.w u v).natAbs : Int)
      ≤ ∑ _u ∈ Finset.range graph.num_vertices, B :=
    Finset.sum_le_sum (fun u _ => hB u v)
  rw [Finset.sum_const, Finset.card_range, nsmul_eq_mul] at h
  omega

/-! ### The hub-row rewrite -/

theorem Graph.setW_num_vertices (graph : Graph) (u v : Nat) (x : Int) :
    (graph.setW u v x).num_vertices = graph.num_vertices := rfl

theorem Graph.setW_WF {graph : Graph} (h : graph.WF) (u v : Nat) (x : Int) :
    (graph.setW u v x).WF := by
  obtain ⟨hlen, hrows⟩ := h
  refine ⟨by simpa [Graph.setW] using hlen, ?_⟩
  intro row hrow
  simp only [Graph.setW] at hrow
  by_cases hu : u < graph.weights.length
  · rcases List.mem_or_eq_of_mem_set hrow with hmem | heq
    · exact hrows row hmem
    · subst heq
      rw [List.length_set, List.getD_eq_getElem _ _ hu]
      exact hrows _ (List.getElem_mem hu)
  · rw [List.set_eq_of_length_le (Nat.le_of_not_lt hu)] at hrow
    exact hrows row hrow

theorem Graph.setW_w {graph : Graph} (h : graph.WF) {u v : Nat}
    (hu : u < graph.num_vertices) (hv : v < graph.num_vertices) (x : Int) (a b : Nat) :
    (graph.setW u v x).w a b = if a = u ∧ b = v then x else graph.w a b := by
  obtain ⟨hlen, hrows⟩ := h
  have hu' : u < graph.weights.length := by omega
  have hrow : (graph.weights[u]).length = graph.num_vertices := hrows _ (List.getElem_mem hu')
  simp only [Graph.w, Graph.setW, List.getD_eq_getElem?_getD, List.getElem?_set]
  by_cases ha : a = u
  · subst ha
    simp only [if_pos hu', if_true, Option.getD_some, List.getElem?_eq_getElem hu',
      List.getElem?_set]
    by_cases hb : b = v
    · subst hb
      simp [hrow, hv]
    · simp [hb, Ne.symm hb]
  · simp [ha, Ne.symm ha]

theorem set_hub_row_fold (graph : Graph) (g_node : Nat) (W : Int) (hwf : graph.WF)
    (hg : g_node < graph.num_vertices) (n : Nat) (hn : n ≤ graph.num_vertices) :
    ((List.range n).foldl
        (fun gr v => if v ≠ g_node then gr.setW g_node v W else gr) graph).WF
      ∧ ((List.range n).foldl
          (fun gr v => if v ≠ g_node then gr.setW g_node v W else gr) graph).num_vertices
            = graph.num_vertices
      ∧ ∀ a b, ((List.range n).foldl
          (fun gr v => if v ≠ g_node then gr.setW g_node v W else gr) graph).w a b
            = if a = g_node ∧ b ≠ g_node ∧ b < n then W else graph.w a b := by
  induction n with
  | zero => exact ⟨hwf, rfl, by simp⟩
  | succ n ih =>
    obtain ⟨ihwf, ihV, ihw⟩ := ih (Nat.le_of_succ_le hn)
    rw [List.range_succ, List.foldl_append]
    simp only [List.foldl_cons, List.foldl_nil]
    generalize (List.range n).foldl
      (fun gr v => if v ≠ g_node then gr.setW g_node v W else gr) graph = gr at ihwf ihV ihw
    by_cases hng : n = g_node
    · simp only [hng, ne_eq, not_true_eq_false, if_false]
      refine ⟨ihwf, ihV, fun a b => ?_⟩
      rw [ihw a b]
      by_cases hc : a = g_node ∧ b ≠ g_node ∧ b < n
      · rw [if_pos hc, if_pos ⟨hc.1, hc.2.1, by omega⟩]
      · rw [if_neg hc, if_neg]
        rintro ⟨h1, h2, h3⟩
        exact hc ⟨h1, h2, by omega⟩
    · simp only [ne_eq, hng, not_false_eq_true, if_true]
      refine ⟨Graph.setW_WF ihwf _ _ _, ihV, fun a b => ?_⟩
      rw [Graph.setW_w ihwf (by omega) (by omega), ihw a b]
      by_cases hab : a = g_node ∧ b = n
      · obtain ⟨ha, hb⟩ := hab
        subst hb
        rw [if_pos ⟨ha, rfl⟩, if_pos ⟨ha, hng, by omega⟩]
      · rw [if_neg hab]
        by_cases hc : a = g_node ∧ b ≠ g_node ∧ b < n
        · rw [if_pos hc, if_pos ⟨hc.1, hc.2.1, by omega⟩]
        · rw [if_neg hc, if_neg]
          rintro ⟨h1, h2, h3⟩
          have : b ≠ n := fun h => hab ⟨h1, h⟩
          exact hc ⟨h1, h2, by omega⟩

/-- What the hub-row rewrite of `main` (lines 131-135) does to a square graph: the shape is
kept, `w[g][v]` becomes `W` at every non-hub `v`, and every other weight is untouched. -/
theorem set_hub_row_spec (graph : Graph) (g_node : Nat) (W : Int) (hwf : graph.WF)
    (hg : g_node < graph.num_vertices) :
    (set_hub_row graph g_node W).WF
      ∧ (set_hub_row graph g_node W).num_vertices = graph.num_vertices
      ∧ ∀ a b, (set_hub_row graph g_node W).w a b
          = if a = g_node ∧ b ≠ g_node ∧ b < graph.num_vertices then W else graph.w a b :=
  set_hub_row_fold graph g_node W hwf hg graph.num_vertices (le_refl _)

/-! ### Vectors that differ at the hub only, the maximum of the rest weights, and the frame
of the hub-row rewrite -/

theorem force_g_eq_of_agree (s t : StateF) (g_node : Nat) (hlen : s.length = t.length)
    (h : ∀ i, i ≠ g_node → s[i]? = t[i]?) : force_g s g_node = force_g t g_node := by
  apply List.ext_getElem?
  intro i
  simp only [force_g, List.getElem?_set]
  by_cases hi : g_node = i
  · simp [hi, hlen]
  · simp [hi, h i (Ne.symm hi)]

theorem foldl_max_attained (f : Nat → Int) (g : Nat) (m0 : Int) (n : Nat) :
    (List.range n).foldl (fun m v => if v = g then m else if f v > m then f v else m) m0 = m0
      ∨ ∃ v, v < n ∧ v ≠ g ∧
        (List.range n).foldl (fun m v => if v = g then m else if f v > m then f v else m) m0
          = f v := by
  induction n with
  | zero => simp
  | succ n ih =>
    rw [List.range_succ, List.foldl_append]
    simp only [List.foldl_cons, List.foldl_nil]
    have lift : (∃ v, v < n ∧ v ≠ g ∧
        (List.range n).foldl (fun m v => if v = g then m else if f v > m then f v else m) m0
          = f v) →
        ∃ v, v < n + 1 ∧ v ≠ g ∧
        (List.range n).foldl (fun m v => if v = g then m else if f v > m then f v else m) m0
          = f v := fun ⟨v, hv, hne, he⟩ => ⟨v, Nat.lt_succ_of_lt hv, hne, he⟩
    by_cases hng : n = g
    · rw [if_pos hng]
      exact ih.imp id lift
    · rw [if_neg hng]
      split
      · exact Or.inr ⟨n, Nat.lt_succ_self n, hng, rfl⟩
      · exact ih.imp id lift

theorem rest_weight_nonneg (v : Nat) (graph : Graph) (g_node : Nat) (hnn : graph.NonNeg)
    (hfit : col_abs graph v ≤ INT_MAX) :
    0 ≤ rest_weight v graph g_node := by
  rw [rest_weight_eq_sum _ _ _ hfit]
  apply Finset.sum_nonneg
  intro u _
  split
  · exact le_refl 0
  · exact Graph.w_nonneg hnn u v

theorem max_rest_attained (graph : Graph) (g_node : Nat) (hnn : graph.NonNeg)
    (hfit : graph.Fits) (hex : ∃ v, v < graph.num_vertices ∧ v ≠ g_node) :
    ∃ v, v < graph.num_vertices ∧ v ≠ g_node
      ∧ max_rest graph g_node = rest_weight v graph g_node := by
  rcases foldl_max_attained (fun v => rest_weight v graph g_node) g_node 0
      graph.num_vertices with h0 | ⟨v, hv, hne, he⟩
  · obtain ⟨v, hv, hne⟩ := hex
    refine ⟨v, hv, hne, ?_⟩
    have hle := rest_weight_le_max_rest graph g_node v hv hne
    have hge := rest_weight_nonneg v graph g_node hnn (hfit v hv)
    have hm : max_rest graph g_node = 0 := h0
    omega
  · exact ⟨v, hv, hne, he⟩

theorem Graph.setW_w_other_row (graph : Graph) (u v : Nat) (x : Int) (a b : Nat)
    (h : a ≠ u) : (graph.setW u v x).w a b = graph.w a b := by
  simp [Graph.w, Graph.setW, List.getD_eq_getElem?_getD, List.getElem?_set, Ne.symm h]

theorem set_hub_row_fold_frame (graph : Graph) (g_node : Nat) (W : Int) (n : Nat) :
    ((List.range n).foldl
        (fun gr v => if v ≠ g_node then gr.setW g_node v W else gr) graph).num_vertices
          = graph.num_vertices
      ∧ ∀ a b, a ≠ g_node →
        ((List.range n).foldl
          (fun gr v => if v ≠ g_node then gr.setW g_node v W else gr) graph).w a b
            = graph.w a b := by
  induction n with
  | zero => exact ⟨rfl, fun _ _ _ => rfl⟩
  | succ n ih =>
    rw [List.range_succ, List.foldl_append]
    simp only [List.foldl_cons, List.foldl_nil]
    split
    · refine ⟨ih.1, fun a b hab => ?_⟩
      rw [Graph.setW_w_other_row _ _ _ _ _ _ hab]
      exact ih.2 a b hab
    · exact ih

theorem set_hub_row_frame (graph : Graph) (g_node : Nat) (W : Int) :
    (set_hub_row graph g_node W).num_vertices = graph.num_vertices
      ∧ ∀ a b, a ≠ g_node → (set_hub_row graph g_node W).w a b = graph.w a b :=
  set_hub_row_fold_frame graph g_node W graph.num_vertices

theorem rest_weight_congr (v : Nat) (g1 g2 : Graph) (g_node : Nat)
    (hV : g1.num_vertices = g2.num_vertices)
    (hw : ∀ a, a ≠ g_node → g1.w a v = g2.w a v) :
    rest_weight v g1 g_node = rest_weight v g2 g_node := by
  unfold rest_weight
  rw [hV]
  congr 1
  funext total_weight u
  by_cases hu : u = g_node
  · simp [hu]
  · simp [hu, hw u hu]

theorem max_rest_congr (g1 g2 : Graph) (g_node : Nat)
    (hV : g1.num_vertices = g2.num_vertices)
    (hw : ∀ v, rest_weight v g1 g_node = rest_weight v g2 g_node) :
    max_rest g1 g_node = max_rest g2 g_node := by
  unfold max_rest
  rw [hV]
  congr 1
  funext m v
  rw [hw v]

theorem set_hub_row_list_frame (g_node : Nat) (l : List Int) (graph : Graph) :
    (l.foldl (fun gr W' => set_hub_row gr g_node W') graph).num_vertices = graph.num_vertices
      ∧ ∀ a b, a ≠ g_node →
        (l.foldl (fun gr W' => set_hub_row gr g_node W') graph).w a b = graph.w a b := by
  induction l generalizing graph with
  | nil => exact ⟨rfl, fun _ _ _ => rfl⟩
  | cons W l ih =>
    simp only [List.foldl_cons]
    obtain ⟨h1, h2⟩ := set_hub_row_frame graph g_node W
    obtain ⟨i1, i2⟩ := ih (set_hub_row graph g_node W)
    exact ⟨i1.trans h1, fun a b hab => (i2 a b hab).trans (h2 a b hab)⟩

theorem graph_at_step_frame (graph : Graph) (g_node : Nat) (W : Nat) :
    (graph_at_step graph g_node W).num_vertices = graph.num_vertices
      ∧ ∀ a b, a ≠ g_node → (graph_at_step graph g_node W).w a b = graph.w a b :=
  set_hub_row_list_frame g_node _ graph

/-! ### The sweep loop and the trial counter -/

theorem sweep_body_records (g_node : Nat) (mr : Int) (shuffles : Int → List (List Nat))
    (st : Graph × List Record) (W : Int) :
    (sweep_body g_node mr shuffles st W).2.map (fun r => r.W)
      = st.2.map (fun r => r.W) ++ [W] := by
  simp [sweep_body]

theorem sweep_loop_Ws (g_node : Nat) (mr : Int) (shuffles : Int → List (List Nat))
    (w_max : Int) (fuel : Nat) (W : Int) (st : Graph × List Record)
    (hfuel : (w_max + 1 - W).toNat ≤ fuel) :
    (sweep_loop g_node mr shuffles w_max fuel W st).2.map (fun r => r.W)
      = st.2.map (fun r => r.W)
          ++ (List.range (w_max + 1 - W).toNat).map (fun (i : Nat) => W + (i : Int)) := by
  induction fuel generalizing W st with
  | zero =>
    have h0 : (w_max + 1 - W).toNat = 0 := by omega
    simp [sweep_loop, h0]
  | succ fuel ih =>
    unfold sweep_loop
    by_cases hW : W ≤ w_max
    · rw [if_pos hW, ih (W + 1) _ (by omega), sweep_body_records]
      have hc : (w_max + 1 - W).toNat = (w_max + 1 - (W + 1)).toNat + 1 := by omega
      rw [hc, List.range_succ_eq_map, List.map_cons, List.map_map, List.append_assoc]
      congr 1
      simp only [List.singleton_append, Nat.cast_zero, add_zero, List.cons.injEq, true_and]
      apply List.map_congr_left
      intro i _
      simp only [Function.comp, Nat.succ_eq_add_one, Nat.cast_add, Nat.cast_one]
      omega
    · rw [if_neg hW]
      have h0 : (w_max + 1 - W).toNat = 0 := by omega
      simp [h0]

theorem sweep_loop_fuel_stable (g_node : Nat) (mr : Int) (shuffles : Int → List (List Nat))
    (w_max : Int) (fuel : Nat) (W : Int) (st : Graph × List Record)
    (hfuel : (w_max + 1 - W).toNat ≤ fuel) :
    sweep_loop g_node mr shuffles w_max fuel W st
      = sweep_loop g_node mr shuffles w_max (w_max + 1 - W).toNat W st := by
  induction fuel generalizing W st with
  | zero =>
    have h0 : (w_max + 1 - W).toNat = 0 := by omega
    rw [h0]
  | succ fuel ih =>
    by_cases hW : W ≤ w_max
    · have hc : (w_max + 1 - W).toNat = (w_max + 1 - (W + 1)).toNat + 1 := by omega
      rw [hc]
      simp only [sweep_loop, if_pos hW]
      exact ih (W + 1) _ (by omega)
    · have h0 : (w_max + 1 - W).toNat = 0 := by omega
      rw [h0]
      simp [sweep_loop, hW]

theorem foldl_count_eq_countP {α : Type} (p : α → Bool) (l : List α) (c : Nat) :
    l.foldl (fun successful a => if p a then successful + 1 else successful) c
      = c + l.countP p := by
  induction l generalizing c with
  | nil => simp
  | cons a l ih =>
    simp only [List.foldl_cons, List.countP_cons]
    rw [ih]
    split <;> omega

theorem successful_trials_le (s0 : StateF) (orders : List (List Nat)) (graph : Graph)
    (g_node : Nat) : successful_trials s0 orders graph g_node ≤ orders.length := by
  unfold successful_trials
  rw [foldl_count_eq_countP (fun order => all_glory (async_pass s0 order graph g_node) order)]
  simpa using List.countP_le_length _

/-! ### The count of the synchronous step -/

theorem sync_count_le (s0 : StateF) (graph : Graph) (g_node : Nat)
    (hs : s0.length = graph.num_vertices) (hg : g_node < graph.num_vertices) :
    (sync_step s0 graph g_node).2 ≤ graph.num_vertices - 1 := by
  obtain ⟨_, _, _, hcnt⟩ :=
    sync_fold_inv s0 graph g_node graph.num_vertices (le_of_eq hs.symm)
  unfold sync_step
  rw [hcnt]
  have hmono : (List.range graph.num_vertices).countP
        (fun v => decide (v ≠ g_node ∧ next_heaven s0 v graph g_node = State.Glory))
      ≤ (List.range graph.num_vertices).countP (fun v => decide (v ≠ g_node)) := by
    apply List.countP_mono_left
    intro v _ hv
    simp only [decide_eq_true_eq] at hv ⊢
    exact hv.1
  rw [countP_ne_range, if_pos hg] at hmono
  exact hmono

/-! ### The checked reads agree with the unchecked ones inside the vectors -/

theorem Graph.w?_eq_some {graph : Graph} (h : graph.WF) {u v : Nat}
    (hu : u < graph.num_vertices) (hv : v < graph.num_vertices) :
    graph.w? u v = some (graph.w u v) := by
  obtain ⟨hlen, hrows⟩ := h
  have hu' : u < graph.weights.length := by omega
  have hrow : (graph.weights[u]).length = graph.num_vertices :=
    hrows _ (List.getElem_mem hu')
  have hv' : v < (graph.weights[u]).length := by omega
  simp [Graph.w?, Graph.w, List.getElem?_eq_getElem hu', List.getD_eq_getElem _ _ hu',
    List.getElem?_eq_getElem hv', List.getD_eq_getElem _ _ hv']

theorem Graph.w?_eq_none {graph : Graph} (h : graph.WF) {u v : Nat}
    (hu : u < graph.num_vertices) (hv : graph.num_vertices ≤ v) :
    graph.w? u v = none := by
  obtain ⟨hlen, hrows⟩ := h
  have hu' : u < graph.weights.length := by omega
  have hrow : (graph.weights[u]).length = graph.num_vertices :=
    hrows _ (List.getElem_mem hu')
  have hv' : (graph.weights[u]).length ≤ v := by omega
  simp [Graph.w?, List.getElem?_eq_getElem hu', List.getElem?_eq_none hv']

theorem score_chk_fold (s : StateF) (x : State) (v : Nat) (graph : Graph) (hwf : graph.WF)
    (hs : s.length = graph.num_vertices) (hv : v < graph.num_vertices) (n : Nat)
    (hn : n ≤ graph.num_vertices) (a : Int) :
    (List.range n).foldlM
        (fun total_score u =>
          match graph.w? u v, s[u]? with
          | some w, some su => some (wrap32 (total_score + w * (if su = x then 1 else 0)))
          | _, _ => none) a
      = some ((List.range n).foldl
          (fun total_score u =>
            wrap32 (total_score + graph.w u v * (if rd s u = x then 1 else 0)))
          a) := by
  induction n with
  | zero => rfl
  | succ n ih =>
    have hn' : n < graph.num_vertices := by omega
    have hns : n < s.length := by omega
    rw [List.range_succ, List.foldlM_append, ih (by omega), List.foldl_append]
    simp [Graph.w?_eq_some hwf hn' hv, List.getElem?_eq_getElem hns, rd,
      List.getD_eq_getElem _ _ hns]

theorem score_chk_eq_some (s : StateF) (x : State) (v : Nat) (graph : Graph) (hwf : graph.WF)
    (hs : s.length = graph.num_vertices) (hv : v < graph.num_vertices) :
    score_chk s x v graph = some (score s x v graph) :=
  score_chk_fold s x v graph hwf hs hv graph.num_vertices (le_refl _) 0

theorem score_chk_eq_none (s : StateF) (x : State) (v : Nat) (graph : Graph) (hwf : graph.WF)
    (hV : 0 < graph.num_vertices) (hv : graph.num_vertices ≤ v) :
    score_chk s x v graph = none := by
  unfold score_chk
  obtain ⟨k, hk⟩ : ∃ k, graph.num_vertices = k + 1 := ⟨graph.num_vertices - 1, by omega⟩
  rw [hk, List.range_succ_eq_map, List.foldlM_cons, Graph.w?_eq_none hwf hV hv]
  rfl

theorem next_heaven_chk_eq_some (s : StateF) (v : Nat) (graph : Graph) (g_node : Nat)
    (hwf : graph.WF) (hs : s.length = graph.num_vertices) (hg : g_node < graph.num_vertices)
    (hv : v < graph.num_vertices) :
    next_heaven_chk s v graph g_node = some (next_heaven s v graph g_node) := by
  unfold next_heaven_chk next_heaven
  by_cases hvg : v = g_node
  · simp [hvg]
  · have hgs : g_node < s.length := by omega
    have hlen : (s.set g_node State.Glory).length = graph.num_vertices := by simpa using hs
    simp only [if_neg hvg, force_g_chk, if_pos hgs, force_g,
      score_chk_eq_some _ _ v graph hwf hlen hv]

theorem next_heaven_chk_eq_none (s : StateF) (v : Nat) (graph : Graph) (g_node : Nat)
    (hwf : graph.WF) (hV : 0 < graph.num_vertices) (hv : graph.num_vertices ≤ v)
    (hvg : v ≠ g_node) :
    next_heaven_chk s v graph g_node = none := by
  unfold next_heaven_chk
  rw [if_neg hvg]
  cases force_g_chk s g_node with
  | none => rfl
  | some s_prime =>
    simp only [score_chk_eq_none _ _ v graph hwf hV hv]

/-! ### The canonical initial vector -/

theorem initial_state_length (n g_node : Nat) : (initial_state n g_node).length = n := by
  simp [initial_state]

theorem rd_initial_state {n g_node u : Nat} (hg : g_node < n) (hu : u < n) :
    rd (initial_state n g_node) u = if u = g_node then State.Glory else State.Gnash := by
  by_cases h : u = g_node
  · subst h
    rw [if_pos rfl, initial_state]
    exact rd_set_self (by simpa using hg) State.Glory
  · rw [if_neg h, initial_state, rd_set_ne _ (Ne.symm h)]
    simp [rd, List.getD_eq_getElem?_getD, List.getElem?_replicate, hu]

theorem force_g_initial_state (n g_node : Nat) :
    force_g (initial_state n g_node) g_node = initial_state n g_node := by
  simp [force_g, initial_state]

theorem score_initial_glory (graph : Graph) (g_node v : Nat)
    (hg : g_node < graph.num_vertices) :
    score (initial_state graph.num_vertices g_node) State.Glory v graph
      = wrap32 (graph.w g_node v) := by
  have key : ∀ n, n ≤ graph.num_vertices →
      (List.range n).foldl
        (fun total_score u =>
          wrap32 (total_score + graph.w u v *
            (if rd (initial_state graph.num_vertices g_node) u = State.Glory then 1 else 0))) 0
        = if g_node < n then wrap32 (graph.w g_node v) else 0 := by
    intro n
    induction n with
    | zero => intro _; rfl
    | succ n ih =>
      intro hn
      rw [List.range_succ, List.foldl_append, ih (by omega)]
      simp only [List.foldl_cons, List.foldl_nil]
      rw [rd_initial_state hg (by omega)]
      by_cases hng : n = g_node
      · subst hng
        simp
      · by_cases hlt : g_node < n
        · have hlt' : g_node < n + 1 := by omega
          simp only [if_neg hng, if_pos hlt, if_pos hlt', reduceCtorEq, if_false, mul_zero,
            add_zero]
          exact wrap32_idem _
        · have hlt' : ¬ g_node < n + 1 := by omega
          simp only [if_neg hng, if_neg hlt, if_neg hlt', reduceCtorEq, if_false, mul_zero,
            add_zero]
          rfl
  unfold score
  rw [key graph.num_vertices (le_refl _), if_pos hg]

theorem score_initial_gnash (graph : Graph) (g_node v : Nat)
    (hg : g_node < graph.num_vertices) :
    score (initial_state graph.num_vertices g_node) State.Gnash v graph
      = rest_weight v graph g_node := by
  have key : ∀ n, n ≤ graph.num_vertices →
      (List.range n).foldl
        (fun total_score u =>
          wrap32 (total_score + graph.w u v *
            (if rd (initial_state graph.num_vertices g_node) u = State.Gnash then 1 else 0))) 0
        = (List.range n).foldl
            (fun total_weight u =>
              if u = g_node then total_weight else wrap32 (total_weight + graph.w u v)) 0
      ∧ wrap32 ((List.range n).foldl
            (fun total_weight u =>
              if u = g_node then total_weight else wrap32 (total_weight + graph.w u v)) 0)
        = (List.range n).foldl
            (fun total_weight u =>
              if u = g_node then total_weight else wrap32 (total_weight + graph.w u v)) 0 := by
    intro n
    induction n with
    | zero =>
      intro _
      constructor <;> rfl
    | succ n ih =>
      intro hn
      obtain ⟨ih1, ih2⟩ := ih (by omega)
      rw [List.range_succ, List.foldl_append, List.foldl_append, ih1]
      simp only [List.foldl_cons, List.foldl_nil]
      rw [rd_initial_state hg (by omega)]
      by_cases hng : n = g_node
      · simp only [if_pos hng, reduceCtorEq, if_false, mul_zero, add_zero]
        exact ⟨ih2, ih2⟩
      · simp only [if_neg hng, if_true, mul_one]
        exact ⟨trivial, wrap32_idem _⟩
  unfold score rest_weight
  exact (key graph.num_vertices (le_refl _)).1

theorem next_heaven_initial_iff (graph : Graph) (g_node v : Nat)
    (hg : g_node < graph.num_vertices) (hne : v ≠ g_node) :
    next_heaven (initial_state graph.num_vertices g_node) v graph g_node = State.Glory
      ↔ rest_weight v graph g_node ≤ wrap32 (graph.w g_node v) := by
  rw [next_heaven_glory_iff _ v graph g_node hne, force_g_initial_state,
    score_initial_glory graph g_node v hg, score_initial_gnash graph g_node v hg]

theorem countP_eq_iff_of_imp {α : Type} (p q : α → Bool) (l : List α)
    (himp : ∀ x ∈ l, p x = true → q x = true) :
    l.countP p = l.countP q ↔ ∀ x ∈ l, q x = true → p x = true := by
  induction l with
  | nil => simp
  | cons a l ih =>
    have himp' : ∀ x ∈ l, p x = true → q x = true :=
      fun x hx => himp x (List.mem_cons_of_mem a hx)
    have hmono := List.countP_mono_left himp'
    have ha := himp a (List.mem_cons_self a l)
    rw [List.countP_cons, List.countP_cons, List.forall_mem_cons, ← ih himp']
    cases hp : p a <;> cases hq : q a <;> simp_all
    omega

theorem sync_count_eq_iff (s0 : StateF) (graph : Graph) (g_node : Nat)
    (hs : s0.length = graph.num_vertices) (hg : g_node < graph.num_vertices) :
    (sync_step s0 graph g_node).2 = graph.num_vertices - 1
      ↔ ∀ v, v < graph.num_vertices → v ≠ g_node →
          next_heaven s0 v graph g_node = State.Glory := by
  obtain ⟨_, _, _, hcnt⟩ :=
    sync_fold_inv s0 graph g_node graph.num_vertices (le_of_eq hs.symm)
  have hq : (List.range graph.num_vertices).countP (fun v => decide (v ≠ g_node))
      = graph.num_vertices - 1 := by rw [countP_ne_range, if_pos hg]
  unfold sync_step
  rw [hcnt, ← hq, countP_eq_iff_of_imp _ _ _ (by
    intro v _ hv
    simp only [decide_eq_true_eq] at hv ⊢
    exact hv.1)]
  constructor
  · intro h v hv hne
    have := h v (List.mem_range.mpr hv) (by simpa using hne)
    simp only [decide_eq_true_eq] at this
    exact this.2
  · intro h v hv hq'
    simp only [decide_eq_true_eq] at hq' ⊢
    exact ⟨hq', h v (List.mem_range.mp hv) hq'⟩

theorem sync_entry_glory_iff (s0 : StateF) (graph : Graph) (g_node v : Nat)
    (hs : s0.length = graph.num_vertices) (hv : v < graph.num_vertices) (hne : v ≠ g_node) :
    (sync_step s0 graph g_node).1[v]? = some State.Glory
      ↔ next_heaven s0 v graph g_node = State.Glory := by
  unfold sync_step
  rw [(sync_fold_inv s0 graph g_node graph.num_vertices (le_of_eq hs.symm)).2.1 v hv hne]
  simp

/-! ### Monotonicity of the rule in the state vector, and the asynchronous pass -/

theorem state_ne_glory {x : State} (h : x ≠ State.Glory) : x = State.Gnash := by
  cases x
  · exact absurd rfl h
  · rfl

theorem score_glory_mono (s t : StateF) (v : Nat) (graph : Graph) (hnn : graph.NonNeg)
    (hfit : col_abs graph v ≤ INT_MAX)
    (h : ∀ u, u < graph.num_vertices → rd s u = State.Glory → rd t u = State.Glory) :
    score s State.Glory v graph ≤ score t State.Glory v graph := by
  rw [score_eq_sum_rd _ _ _ _ hfit, score_eq_sum_rd _ _ _ _ hfit]
  apply Finset.sum_le_sum
  intro u hu
  by_cases hsu : rd s u = State.Glory
  · rw [if_pos hsu, if_pos (h u (Finset.mem_range.mp hu) hsu)]
  · rw [if_neg hsu]
    split
    · exact Graph.w_nonneg hnn u v
    · exact le_refl 0

theorem score_gnash_anti (s t : StateF) (v : Nat) (graph : Graph) (hnn : graph.NonNeg)
    (hfit : col_abs graph v ≤ INT_MAX)
    (h : ∀ u, u < graph.num_vertices → rd s u = State.Glory → rd t u = State.Glory) :
    score t State.Gnash v graph ≤ score s State.Gnash v graph := by
  rw [score_eq_sum_rd _ _ _ _ hfit, score_eq_sum_rd _ _ _ _ hfit]
  apply Finset.sum_le_sum
  intro u hu
  by_cases htu : rd t u = State.Gnash
  · have hsu : rd s u = State.Gnash := by
      apply state_ne_glory
      intro hG
      have := h u (Finset.mem_range.mp hu) hG
      rw [htu] at this
      exact State.noConfusion this
    rw [if_pos htu, if_pos hsu]
  · rw [if_neg htu]
    split
    · exact Graph.w_nonneg hnn u v
    · exact le_refl 0

theorem next_heaven_mono_state (s t : StateF) (v : Nat) (graph : Graph) (g_node : Nat)
    (hnn : graph.NonNeg) (hfit : col_abs graph v ≤ INT_MAX)
    (h : ∀ u, u < graph.num_vertices →
      rd (force_g s g_node) u = State.Glory → rd (force_g t g_node) u = State.Glory)
    (hs : next_heaven s v graph g_node = State.Glory) :
    next_heaven t v graph g_node = State.Glory := by
  by_cases hne : v = g_node
  · simp [next_heaven, hne]
  · rw [next_heaven_glory_iff _ v graph g_node hne] at hs ⊢
    have h1 := score_glory_mono _ _ v graph hnn hfit h
    have h2 := score_gnash_anti _ _ v graph hnn hfit h
    omega

theorem next_heaven_of_initial (t : StateF) (v : Nat) (graph : Graph) (g_node : Nat)
    (hnn : graph.NonNeg) (hfit : col_abs graph v ≤ INT_MAX) (hg : g_node < graph.num_vertices)
    (ht : t.length = graph.num_vertices)
    (h0 : next_heaven (initial_state graph.num_vertices g_node) v graph g_node = State.Glory) :
    next_heaven t v graph g_node = State.Glory := by
  apply next_heaven_mono_state _ t v graph g_node hnn hfit _ h0
  intro u hu hG
  rw [force_g_initial_state, rd_initial_state hg hu] at hG
  by_cases hug : u = g_node
  · subst hug
    exact rd_force_g_hub (by omega)
  · rw [if_neg hug] at hG
    exact State.noConfusion hG

theorem async_pass_inv (graph : Graph) (g_node : Nat) (hnn : graph.NonNeg)
    (hfit : graph.Fits) (hg : g_node < graph.num_vertices) (order : List Nat)
    (hord : ∀ w ∈ order, w < graph.num_vertices) (s : StateF)
    (hs : s.length = graph.num_vertices) :
    (async_pass s order graph g_node).length = graph.num_vertices
      ∧ ∀ v, next_heaven (initial_state graph.num_vertices g_node) v graph g_node
            = State.Glory →
          (v ∈ order ∨ rd s v = State.Glory) →
          rd (async_pass s order graph g_node) v = State.Glory := by
  induction order generalizing s with
  | nil =>
    refine ⟨hs, fun v _ hv => ?_⟩
    rcases hv with hv | hv
    · exact absurd hv (List.not_mem_nil v)
    · exact hv
  | cons w rest ih =>
    have hwV : w < graph.num_vertices := hord w (List.mem_cons_self w rest)
    have hw : w < s.length := by
      rw [hs]
      exact hwV
    have hlen : (s.set w (next_heaven s w graph g_node)).length = graph.num_vertices := by
      simpa using hs
    obtain ⟨ihlen, ihG⟩ := ih (fun x hx => hord x (List.mem_cons_of_mem w hx))
      (s.set w (next_heaven s w graph g_node)) hlen
    have hunfold : async_pass s (w :: rest) graph g_node
        = async_pass (s.set w (next_heaven s w graph g_node)) rest graph g_node := rfl
    rw [hunfold]
    refine ⟨ihlen, fun v hv0 hv => ?_⟩
    apply ihG v hv0
    by_cases hvw : v = w
    · right
      rw [hvw] at hv0 ⊢
      rw [rd_set_self hw]
      exact next_heaven_of_initial s w graph g_node hnn (hfit w hwV) hg hs hv0
    · rcases hv with hv | hv
      · rcases List.mem_cons.mp hv with h | h
        · exact absurd h hvw
        · exact Or.inl h
      · right
        rw [rd_set_ne s (Ne.symm hvw)]
        exact hv

theorem mem_non_hubs (n g_node v : Nat) : v ∈ non_hubs n g_node ↔ v < n ∧ v ≠ g_node := by
  simp [non_hubs]

theorem all_glory_iff (s : StateF) (order : List Nat) :
    all_glory s order = true ↔ ∀ v ∈ order, rd s v = State.Glory := by
  simp [all_glory]

/-! ### The all-`Glory` vector -/

theorem getElem?_all_glory {s : StateF} (hall : ∀ x ∈ s, x = State.Glory) {u : Nat}
    (hu : u < s.length) : s[u]? = some State.Glory := by
  rw [List.getElem?_eq_getElem hu, hall _ (List.getElem_mem hu)]

theorem rd_all_glory {s : StateF} (hall : ∀ x ∈ s, x = State.Glory) {u : Nat}
    (hu : u < s.length) : rd s u = State.Glory :=
  (rd_eq_iff hu State.Glory).mpr (getElem?_all_glory hall hu)

theorem set_glory_all_glory {s : StateF} (hall : ∀ x ∈ s, x = State.Glory) (w : Nat) :
    s.set w State.Glory = s := by
  apply List.ext_getElem?
  intro i
  rw [List.getElem?_set]
  by_cases hwi : w = i
  · subst hwi
    by_cases hw : w < s.length
    · rw [if_pos rfl, if_pos hw, getElem?_all_glory hall hw]
    · rw [if_pos rfl, if_neg hw, List.getElem?_eq_none (Nat.le_of_not_lt hw)]
  · rw [if_neg hwi]

theorem score_nonneg (s : StateF) (x : State) (v : Nat) (graph : Graph) (hnn : graph.NonNeg)
    (hfit : col_abs graph v ≤ INT_MAX) :
    0 ≤ score s x v graph := by
  rw [score_eq_sum_rd _ _ _ _ hfit]
  apply Finset.sum_nonneg
  intro u _
  split
  · exact Graph.w_nonneg hnn u v
  · exact le_refl 0

theorem score_gnash_all_glory (s : StateF) (v : Nat) (graph : Graph)
    (hfit : col_abs graph v ≤ INT_MAX)
    (hs : s.length = graph.num_vertices) (hall : ∀ x ∈ s, x = State.Glory) :
    score s State.Gnash v graph = 0 := by
  rw [score_eq_sum_rd _ _ _ _ hfit]
  apply Finset.sum_eq_zero
  intro u hu
  have hu' : u < s.length := by
    rw [hs]
    exact Finset.mem_range.mp hu
  rw [rd_all_glory hall hu']
  simp

theorem next_heaven_all_glory (s : StateF) (v : Nat) (graph : Graph) (g_node : Nat)
    (hnn : graph.NonNeg) (hfit : col_abs graph v ≤ INT_MAX)
    (hs : s.length = graph.num_vertices) (hall : ∀ x ∈ s, x = State.Glory) :
    next_heaven s v graph g_node = State.Glory := by
  by_cases hne : v = g_node
  · simp [next_heaven, hne]
  · rw [next_heaven_glory_iff s v graph g_node hne, force_g, set_glory_all_glory hall,
      score_gnash_all_glory s v graph hfit hs hall]
    exact score_nonneg s State.Glory v graph hnn hfit

theorem async_pass_all_glory (s : StateF) (order : List Nat) (graph : Graph) (g_node : Nat)
    (hnn : graph.NonNeg) (hfit : graph.Fits) (hs : s.length = graph.num_vertices)
    (hall : ∀ x ∈ s, x = State.Glory) (hord : ∀ w ∈ order, w < graph.num_vertices) :
    async_pass s order graph g_node = s := by
  induction order with
  | nil => rfl
  | cons w rest ih =>
    have hunfold : async_pass s (w :: rest) graph g_node
        = async_pass (s.set w (next_heaven s w graph g_node)) rest graph g_node := rfl
    rw [hunfold, next_heaven_all_glory s w graph g_node hnn
        (hfit w (hord w (List.mem_cons_self w rest))) hs hall,
      set_glory_all_glory hall, ih (fun x hx => hord x (List.mem_cons_of_mem w hx))]

theorem sync_step_all_glory (s : StateF) (graph : Graph) (g_node : Nat)
    (hnn : graph.NonNeg) (hfit : graph.Fits) (hs : s.length = graph.num_vertices)
    (hall : ∀ x ∈ s, x = State.Glory) :
    (sync_step s graph g_node).1 = s := by
  obtain ⟨_, hset, hkeep, _⟩ :=
    sync_fold_inv s graph g_node graph.num_vertices (le_of_eq hs.symm)
  unfold sync_step
  apply List.ext_getElem?
  intro i
  by_cases hi : i < graph.num_vertices ∧ i ≠ g_node
  · rw [hset i hi.1 hi.2, next_heaven_all_glory s i graph g_node hnn (hfit i hi.1) hs hall,
      getElem?_all_glory hall (by omega)]
  · exact hkeep i (by omega)

/-! ## Theorems -/

/-- Counterexample to C1 as stated: on `edgeGraph 2147483647` (non-negative `int` weights)
with every entry `Glory`, the loop of `score` for `v = 1` adds `1` to `2147483647` in an `int`
and returns `-2147483648`, while the sum of the weights is `2147483648`. -/
theorem score_overflow_counterexample :
    ([State.Glory, State.Glory, State.Glory] : StateF).length = (edgeGraph 2147483647).num_vertices
      ∧ 1 < (edgeGraph 2147483647).num_vertices
      ∧ (edgeGraph 2147483647).IntWeights ∧ (edgeGraph 2147483647).NonNeg
      ∧ score [State.Glory, State.Glory, State.Glory] State.Glory 1 (edgeGraph 2147483647) = -2147483648
      ∧ score_spec [State.Glory, State.Glory, State.Glory] State.Glory 1 (edgeGraph 2147483647) = 2147483648
      ∧ score [State.Glory, State.Glory, State.Glory] State.Glory 1 (edgeGraph 2147483647)
          ≠ score_spec [State.Glory, State.Glory, State.Glory] State.Glory 1 (edgeGraph 2147483647) := by
  have hspec : score_spec [State.Glory, State.Glory, State.Glory] State.Glory 1 (edgeGraph 2147483647) = 2147483648 := by
    simp [score_spec, edgeGraph, Graph.w, Finset.sum_range_succ]
  refine ⟨by decide, by decide, by decide, by decide, by decide, hspec, ?_⟩
  rw [hspec]
  decide

/-- C1, amended: for a state vector of length `V`, a vertex `v` in `[0,V)` and a graph whose
column `v` adds up, in absolute value, to at most `INT_MAX`, the loop of `score` returns the
sum over `u` in `[0,V)` of `w[u][v]` where `s[u] == x`, else `0`. -/
theorem score_eq_score_spec (s : StateF) (x : State) (v : Nat) (graph : Graph)
    (hs : s.length = graph.num_vertices) (_hv : v < graph.num_vertices)
    (hfit : col_abs graph v ≤ INT_MAX) :
    score s x v graph = score_spec s x v graph := by
  rw [score_eq_sum_rd _ _ _ _ hfit, score_spec]
  refine Finset.sum_congr rfl (fun u hu => ?_)
  have hu' : u < s.length := by rw [hs]; exact Finset.mem_range.mp hu
  simp only [rd_eq_iff hu']

theorem score_eq_score_spec_witness :
    ([State.Glory, State.Gnash, State.Gnash] : StateF).length
        = (Graph.mk 3 [[0, 0, 4], [0, 0, 5], [0, 0, 0]]).num_vertices
      ∧ 2 < (Graph.mk 3 [[0, 0, 4], [0, 0, 5], [0, 0, 0]]).num_vertices
      ∧ col_abs (Graph.mk 3 [[0, 0, 4], [0, 0, 5], [0, 0, 0]]) 2 ≤ INT_MAX
      ∧ score [State.Glory, State.Gnash, State.Gnash] State.Gnash 2
            (Graph.mk 3 [[0, 0, 4], [0, 0, 5], [0, 0, 0]])
          = score_spec [State.Glory, State.Gnash, State.Gnash] State.Gnash 2
            (Graph.mk 3 [[0, 0, 4], [0, 0, 5], [0, 0, 0]]) :=
  ⟨by decide, by decide, by decide,
    score_eq_score_spec _ _ _ _ (by decide) (by decide) (by decide)⟩

/-- C2: for a non-hub vertex `v`, with `s' = force_g s`, `SG = score s' Glory v` and
`SN = score s' Gnash v`, `next_heaven s v` is `Gnash` exactly when `SG < SN`, and is `Glory`
otherwise, in particular on the tie `SG = SN`. -/
theorem next_heaven_nonhub (s : StateF) (v : Nat) (graph : Graph) (g_node : Nat)
    (_hs : s.length = graph.num_vertices) (_hv : v < graph.num_vertices) (hne : v ≠ g_node) :
    (next_heaven s v graph g_node = State.Gnash
        ↔ score (force_g s g_node) State.Glory v graph
            < score (force_g s g_node) State.Gnash v graph)
      ∧ (next_heaven s v graph g_node = State.Glory
        ↔ ¬ score (force_g s g_node) State.Glory v graph
            < score (force_g s g_node) State.Gnash v graph)
      ∧ (score (force_g s g_node) State.Glory v graph
            = score (force_g s g_node) State.Gnash v graph
          → next_heaven s v graph g_node = State.Glory) := by
  have key : next_heaven s v graph g_node
      = if score (force_g s g_node) State.Glory v graph
            < score (force_g s g_node) State.Gnash v graph
        then State.Gnash else State.Glory := by
    simp [next_heaven, hne]
  rw [key]
  refine ⟨?_, ?_, ?_⟩
  · split <;> simp_all
  · split <;> simp_all
  · intro h
    simp [h]

theorem next_heaven_nonhub_witness :
    ([State.Glory, State.Gnash, State.Gnash] : StateF).length
        = (Graph.mk 3 [[0, 0, 5], [0, 0, 5], [0, 0, 0]]).num_vertices
      ∧ 2 < (Graph.mk 3 [[0, 0, 5], [0, 0, 5], [0, 0, 0]]).num_vertices
      ∧ 2 ≠ 0
      ∧ score (force_g [State.Glory, State.Gnash, State.Gnash] 0) State.Glory 2
            (Graph.mk 3 [[0, 0, 5], [0, 0, 5], [0, 0, 0]])
          = score (force_g [State.Glory, State.Gnash, State.Gnash] 0) State.Gnash 2
            (Graph.mk 3 [[0, 0, 5], [0, 0, 5], [0, 0, 0]])
      ∧ next_heaven [State.Glory, State.Gnash, State.Gnash] 2
          (Graph.mk 3 [[0, 0, 5], [0, 0, 5], [0, 0, 0]]) 0 = State.Glory :=
  ⟨by decide, by decide, by decide, by decide,
    (next_heaven_nonhub [State.Glory, State.Gnash, State.Gnash] 2
      (Graph.mk 3 [[0, 0, 5], [0, 0, 5], [0, 0, 0]]) 0
      (by decide) (by decide) (by decide)).2.2 (by decide)⟩

/-- C3: for every graph and every state vector, also one whose hub entry is `Gnash`,
`next_heaven` evaluated at the hub vertex returns `Glory`. -/
theorem next_heaven_hub (s : StateF) (graph : Graph) (g_node : Nat) :
    next_heaven s g_node graph g_node = State.Glory := by
  simp [next_heaven]

/-- C4: for a valid hub index `g`, `force_g s g` has the length of `s`, holds `Glory` at
index `g`, and equals `s` at every other index. -/
theorem force_g_frame (s : StateF) (g_node : Nat) (hg : g_node < s.length) :
    (force_g s g_node).length = s.length
      ∧ (force_g s g_node)[g_node]? = some State.Glory
      ∧ ∀ i, i ≠ g_node → (force_g s g_node)[i]? = s[i]? := by
  refine ⟨by simp [force_g], by simp [force_g, List.getElem?_set, hg], ?_⟩
  intro i hi
  simp [force_g, List.getElem?_set, Ne.symm hi]

theorem force_g_frame_witness :
    1 < ([State.Gnash, State.Gnash, State.Glory] : StateF).length
      ∧ (force_g [State.Gnash, State.Gnash, State.Glory] 1).length
          = ([State.Gnash, State.Gnash, State.Glory] : StateF).length
      ∧ (force_g [State.Gnash, State.Gnash, State.Glory] 1)[1]? = some State.Glory
      ∧ ∀ i, i ≠ 1 → (force_g [State.Gnash, State.Gnash, State.Glory] 1)[i]?
          = ([State.Gnash, State.Gnash, State.Glory] : StateF)[i]? :=
  ⟨by decide, force_g_frame [State.Gnash, State.Gnash, State.Glory] 1 (by decide)⟩

/-- Counterexample to C5 as stated: with every entry `Glory`, `edgeGraph 0` and
`edgeGraph 2147483647` differ only in the hub weight `w[0][1]`, raised from `0` to
`2147483647`; `next_heaven s 1` is `Glory` on the first (`SG = 1`, `SN = 0`) and `Gnash` on the
second, where the `int` sum `2147483647 + 1` becomes negative. -/
theorem next_heaven_mono_overflow_counterexample :
    ([State.Glory, State.Glory, State.Glory] : StateF).length = (edgeGraph 0).num_vertices
      ∧ (edgeGraph 2147483647).num_vertices = (edgeGraph 0).num_vertices
      ∧ (edgeGraph 0).IntWeights ∧ (edgeGraph 2147483647).IntWeights
      ∧ (∀ u x, (u ≠ 0 ∨ x ≠ 1) → (edgeGraph 2147483647).w u x = (edgeGraph 0).w u x)
      ∧ (edgeGraph 0).w 0 1 ≤ (edgeGraph 2147483647).w 0 1
      ∧ next_heaven [State.Glory, State.Glory, State.Glory] 1 (edgeGraph 0) 0 = State.Glory
      ∧ next_heaven [State.Glory, State.Glory, State.Glory] 1 (edgeGraph 2147483647) 0 = State.Gnash := by
  refine ⟨by decide, by decide, by decide, by decide, ?_, by decide, by decide, by decide⟩
  intro u x h
  rcases u with _ | _ | _ | u <;> rcases x with _ | _ | _ | x <;>
    simp_all [Graph.w, edgeGraph]

/-- C5, amended: for a non-hub vertex `v`, a state vector `s` and two graphs that agree
everywhere except that the hub weight `w[g][v]` is `W` in the first and some `W' ≥ W` in the
second, both with column `v` adding up, in absolute value, to at most `INT_MAX`: if
`next_heaven s v` is `Glory` on the first graph then it is `Glory` on the second. -/
theorem next_heaven_mono_hub_weight (s : StateF) (v : Nat) (g1 g2 : Graph) (g_node : Nat)
    (hV : g2.num_vertices = g1.num_vertices) (hs : s.length = g1.num_vertices)
    (hg : g_node < g1.num_vertices) (_hv : v < g1.num_vertices) (hne : v ≠ g_node)
    (hsame : ∀ u x, (u ≠ g_node ∨ x ≠ v) → g2.w u x = g1.w u x)
    (hle : g1.w g_node v ≤ g2.w g_node v)
    (hfit1 : col_abs g1 v ≤ INT_MAX) (hfit2 : col_abs g2 v ≤ INT_MAX)
    (h : next_heaven s v g1 g_node = State.Glory) :
    next_heaven s v g2 g_node = State.Glory := by
  have hgs : g_node < s.length := by omega
  have hSN : score (force_g s g_node) State.Gnash v g2
      = score (force_g s g_node) State.Gnash v g1 := by
    rw [score_eq_sum_rd _ _ _ _ hfit1, score_eq_sum_rd _ _ _ _ hfit2, hV]
    refine Finset.sum_congr rfl (fun u _ => ?_)
    by_cases hu : u = g_node
    · subst hu
      simp [rd_force_g_hub hgs]
    · rw [hsame u v (Or.inl hu)]
  have hSG : score (force_g s g_node) State.Glory v g1
      ≤ score (force_g s g_node) State.Glory v g2 := by
    rw [score_eq_sum_rd _ _ _ _ hfit1, score_eq_sum_rd _ _ _ _ hfit2, hV]
    apply Finset.sum_le_sum
    intro u _
    by_cases hu : u = g_node
    · subst hu
      simpa [rd_force_g_hub hgs] using hle
    · rw [hsame u v (Or.inl hu)]
  rw [next_heaven_glory_iff s v _ g_node hne] at h ⊢
  omega

/-- The concrete case of C5: on `tieGraph W` (hub `0`, `w[1][2] = 5`, `w[0][2] = W`) with
`s = [Glory, Gnash, Gnash]`, `next_heaven s 2` is `Gnash` for `W = 4`, `Glory` for `W = 5`
(the tie), and `Glory` for `W = 6`, the last obtained from the tie by monotonicity. -/
theorem next_heaven_mono_hub_weight_witness :
    next_heaven [State.Glory, State.Gnash, State.Gnash] 2 (tieGraph 4) 0 = State.Gnash
      ∧ next_heaven [State.Glory, State.Gnash, State.Gnash] 2 (tieGraph 5) 0 = State.Glory
      ∧ (tieGraph 5).w 0 2 ≤ (tieGraph 6).w 0 2
      ∧ (∀ u x, (u ≠ 0 ∨ x ≠ 2) → (tieGraph 6).w u x = (tieGraph 5).w u x)
      ∧ col_abs (tieGraph 5) 2 ≤ INT_MAX ∧ col_abs (tieGraph 6) 2 ≤ INT_MAX
      ∧ next_heaven [State.Glory, State.Gnash, State.Gnash] 2 (tieGraph 6) 0 = State.Glory := by
  have hsame : ∀ u x, (u ≠ 0 ∨ x ≠ 2) → (tieGraph 6).w u x = (tieGraph 5).w u x := by
    intro u x h
    rcases u with _ | _ | _ | u <;> rcases x with _ | _ | _ | x <;>
      simp_all [Graph.w, tieGraph]
  exact ⟨by decide, by decide, by decide, hsame, by decide, by decide,
    next_heaven_mono_hub_weight [State.Glory, State.Gnash, State.Gnash] 2 (tieGraph 5)
      (tieGraph 6) 0 (by decide) (by decide) (by decide) (by decide) (by decide) hsame
      (by decide) (by decide) (by decide) (by decide)⟩

/-- Counterexample to C6 as stated: `hubMaxGraph` has `V = 3`, non-negative `int` weights, hub
row `2147483647` and `max_rest = 1`; from the all-`Glory` vector the synchronous step leaves
vertex `1` in `Gnash` (its `int` sum `2147483647 + 1` is negative), so `glory_count` is `1`,
not `V - 1 = 2`. -/
theorem sync_above_max_rest_overflow_counterexample :
    2 ≤ hubMaxGraph.num_vertices ∧ hubMaxGraph.NonNeg ∧ hubMaxGraph.IntWeights
      ∧ (∀ v, v < hubMaxGraph.num_vertices → v ≠ 0 → hubMaxGraph.w 0 v = 2147483647)
      ∧ ([State.Glory, State.Glory, State.Glory] : StateF).length = hubMaxGraph.num_vertices
      ∧ max_rest hubMaxGraph 0 = 1
      ∧ max_rest hubMaxGraph 0 < 2147483647
      ∧ (sync_step [State.Glory, State.Glory, State.Glory] hubMaxGraph 0).1[1]? = some State.Gnash
      ∧ (sync_step [State.Glory, State.Glory, State.Glory] hubMaxGraph 0).2 = 1
      ∧ (sync_step [State.Glory, State.Glory, State.Glory] hubMaxGraph 0).2 ≠ hubMaxGraph.num_vertices - 1 := by
  decide

/-- C6, amended: for a graph with `V ≥ 2` and non-negative weights, every column adding up to
at most `INT_MAX`, whose hub row holds `W` at every non-hub vertex, if `W > max_rest` then one
synchronous step from any state vector of length `V` leaves every non-hub vertex in `Glory`,
so `glory_count = V - 1` and the fraction is `1`. -/
theorem sync_all_glory_above_max_rest (graph : Graph) (g_node : Nat) (W : Int) (s0 : StateF)
    (hV : 2 ≤ graph.num_vertices) (hnn : graph.NonNeg) (hfit : graph.Fits)
    (hg : g_node < graph.num_vertices)
    (hrow : ∀ v, v < graph.num_vertices → v ≠ g_node → graph.w g_node v = W)
    (hs : s0.length = graph.num_vertices) (hW : max_rest graph g_node < W) :
    (∀ v, v < graph.num_vertices → v ≠ g_node →
        (sync_step s0 graph g_node).1[v]? = some State.Glory)
      ∧ (sync_step s0 graph g_node).2 = graph.num_vertices - 1
      ∧ percent_glory_sync s0 graph g_node = 1 := by
  have hnext : ∀ v, v < graph.num_vertices → v ≠ g_node →
      next_heaven s0 v graph g_node = State.Glory := by
    intro v hv hne
    apply next_heaven_glory_of_dominant s0 v graph g_node hnn (hfit v hv) hg hs hne
    have := rest_weight_le_max_rest graph g_node v hv hne
    rw [hrow v hv hne]
    omega
  obtain ⟨_, hset, _, hcnt⟩ :=
    sync_fold_inv s0 graph g_node graph.num_vertices (le_of_eq hs.symm)
  have hcount : (sync_step s0 graph g_node).2 = graph.num_vertices - 1 := by
    unfold sync_step
    rw [hcnt]
    have hP : (List.range graph.num_vertices).countP
          (fun v => decide (v ≠ g_node ∧ next_heaven s0 v graph g_node = State.Glory))
        = (List.range graph.num_vertices).countP (fun v => decide (v ≠ g_node)) := by
      apply List.countP_congr
      intro v hv
      have hv' : v < graph.num_vertices := List.mem_range.mp hv
      by_cases hne : v = g_node
      · simp [hne]
      · simp [hne, hnext v hv' hne]
    rw [hP, countP_ne_range, if_pos hg]
  refine ⟨?_, hcount, ?_⟩
  · intro v hv hne
    unfold sync_step
    rw [hset v hv hne, hnext v hv hne]
  · rw [percent_glory_sync, hcount]
    have h1 : (1 : Nat) ≤ graph.num_vertices := by omega
    have h2 : ((graph.num_vertices : ℚ) - 1) ≠ 0 := by
      have : (2 : ℚ) ≤ (graph.num_vertices : ℚ) := by exact_mod_cast hV
      linarith
    push_cast [Nat.cast_sub h1]
    exact div_self h2

theorem sync_all_glory_above_max_rest_witness :
    2 ≤ (graph_at_step pairGraph 0 4).num_vertices
      ∧ (graph_at_step pairGraph 0 4).NonNeg
      ∧ (graph_at_step pairGraph 0 4).Fits
      ∧ 0 < (graph_at_step pairGraph 0 4).num_vertices
      ∧ (∀ v, v < (graph_at_step pairGraph 0 4).num_vertices → v ≠ 0 →
          (graph_at_step pairGraph 0 4).w 0 v = 4)
      ∧ (initial_state 3 0).length = (graph_at_step pairGraph 0 4).num_vertices
      ∧ max_rest (graph_at_step pairGraph 0 4) 0 < 4
      ∧ ((∀ v, v < (graph_at_step pairGraph 0 4).num_vertices → v ≠ 0 →
            (sync_step (initial_state 3 0) (graph_at_step pairGraph 0 4) 0).1[v]?
              = some State.Glory)
        ∧ (sync_step (initial_state 3 0) (graph_at_step pairGraph 0 4) 0).2
            = (graph_at_step pairGraph 0 4).num_vertices - 1
        ∧ percent_glory_sync (initial_state 3 0) (graph_at_step pairGraph 0 4) 0 = 1) :=
  ⟨by decide, by decide, by decide, by decide, by decide, by decide, by decide,
    sync_all_glory_above_max_rest (graph_at_step pairGraph 0 4) 0 4 (initial_state 3 0)
      (by decide) (by decide) (by decide) (by decide) (by decide) (by decide) (by decide)⟩

/-- C7: there are a graph, an initial vector and two orderings of the same non-hub vertices
for which the asynchronous pass ends with every non-hub vertex in `Glory` under one ordering
and not under the other: on `orderGraph` from the canonical initial vector, the order `[1, 2]`
succeeds and the order `[2, 1]` fails. -/
theorem async_order_dependence :
    ∃ (graph : Graph) (g_node : Nat) (s0 : StateF) (o1 o2 : List Nat),
      graph = orderGraph ∧ g_node = 0 ∧ s0 = initial_state 3 0 ∧ o1 = [1, 2] ∧ o2 = [2, 1]
        ∧ graph.WF ∧ s0.length = graph.num_vertices
        ∧ o1.Perm (non_hubs graph.num_vertices g_node)
        ∧ o2.Perm (non_hubs graph.num_vertices g_node)
        ∧ all_glory (async_pass s0 o1 graph g_node) o1 = true
        ∧ all_glory (async_pass s0 o2 graph g_node) o2 = false := by
  refine ⟨orderGraph, 0, initial_state 3 0, [1, 2], [2, 1], rfl, rfl, rfl, rfl, rfl, ?_⟩
  decide

/-- C8: on `pairGraph` (hub `0`) `max_rest` is `3`, and in the sweep from the canonical
initial vector the synchronous step puts `0` of the `2` non-hub vertices in `Glory`
(`percent_glory_sync = 0`) for `W = 0, 1, 2` and `2` of `2` (`percent_glory_sync = 1`) for
`W = 3, 4, 5`. -/
theorem pairGraph_sweep :
    max_rest pairGraph 0 = 3
      ∧ (∀ W ∈ [0, 1, 2],
          (sync_step (initial_state 3 0) (graph_at_step pairGraph 0 W) 0).2 = 0
            ∧ percent_glory_sync (initial_state 3 0) (graph_at_step pairGraph 0 W) 0 = 0)
      ∧ (∀ W ∈ [3, 4, 5],
          (sync_step (initial_state 3 0) (graph_at_step pairGraph 0 W) 0).2 = 2
            ∧ percent_glory_sync (initial_state 3 0) (graph_at_step pairGraph 0 W) 0 = 1) := by
  have low : ∀ W ∈ [0, 1, 2],
      (sync_step (initial_state 3 0) (graph_at_step pairGraph 0 W) 0).2 = 0
        ∧ (graph_at_step pairGraph 0 W).num_vertices = 3 := by decide
  have high : ∀ W ∈ [3, 4, 5],
      (sync_step (initial_state 3 0) (graph_at_step pairGraph 0 W) 0).2 = 2
        ∧ (graph_at_step pairGraph 0 W).num_vertices = 3 := by decide
  refine ⟨by decide, fun W hW => ⟨(low W hW).1, ?_⟩, fun W hW => ⟨(high W hW).1, ?_⟩⟩
  · rw [percent_glory_sync, (low W hW).1, (low W hW).2]
    norm_num
  · rw [percent_glory_sync, (high W hW).1, (high W hW).2]
    norm_num

/-- C9: for a snapshot `s0` of length `V`, the vector produced by the synchronous step holds
`next_heaven s0 v` at every non-hub vertex `v`: each evaluation reads the snapshot `s0`, never
an entry written earlier in the same step. -/
theorem sync_step_reads_snapshot (s0 : StateF) (graph : Graph) (g_node v : Nat)
    (hs : s0.length = graph.num_vertices) (hv : v < graph.num_vertices) (hne : v ≠ g_node) :
    (sync_step s0 graph g_node).1[v]? = some (next_heaven s0 v graph g_node) :=
  (sync_fold_inv s0 graph g_node graph.num_vertices (le_of_eq hs.symm)).2.1 v hv hne

theorem sync_step_reads_snapshot_witness :
    (initial_state 3 0).length = orderGraph.num_vertices
      ∧ 2 < orderGraph.num_vertices ∧ 2 ≠ 0
      ∧ (sync_step (initial_state 3 0) orderGraph 0).1[2]?
          = some (next_heaven (initial_state 3 0) 2 orderGraph 0)
      ∧ next_heaven (initial_state 3 0) 2 orderGraph 0 = State.Gnash
      ∧ next_heaven ((initial_state 3 0).set 1 (next_heaven (initial_state 3 0) 1 orderGraph 0))
          2 orderGraph 0 = State.Glory :=
  ⟨by decide, by decide, by decide,
    sync_step_reads_snapshot (initial_state 3 0) orderGraph 0 2 (by decide) (by decide)
      (by decide),
    by decide, by decide⟩

/-- Counterexample to C10 as stated: on the `pairGraph` with hub row `5`, the synchronous
step from the vector `[Gnash, Gnash, Gnash]` of length `V = 3` returns a vector whose hub
entry is `Gnash`, not `Glory`. -/
theorem sync_step_hub_gnash_counterexample :
    ([State.Gnash, State.Gnash, State.Gnash] : StateF).length
        = (graph_at_step pairGraph 0 5).num_vertices
      ∧ (graph_at_step pairGraph 0 5).WF
      ∧ (sync_step [State.Gnash, State.Gnash, State.Gnash] (graph_at_step pairGraph 0 5) 0).1
          = [State.Gnash, State.Glory, State.Glory]
      ∧ (sync_step [State.Gnash, State.Gnash, State.Gnash] (graph_at_step pairGraph 0 5) 0).1[0]?
          ≠ some State.Glory := by
  decide

/-- C10, amended: for an input vector `s0` of length `V`, the synchronous step leaves the hub
entry as it is in `s0`; so the hub entry of the result is `Glory` whenever the hub entry of
`s0` is `Glory`, in particular from the canonical initial vector. -/
theorem sync_step_hub_entry (s0 : StateF) (graph : Graph) (g_node : Nat)
    (hs : s0.length = graph.num_vertices) (hg : g_node < graph.num_vertices) :
    (sync_step s0 graph g_node).1[g_node]? = s0[g_node]?
      ∧ (s0[g_node]? = some State.Glory →
          (sync_step s0 graph g_node).1[g_node]? = some State.Glory)
      ∧ (sync_step (initial_state graph.num_vertices g_node) graph g_node).1[g_node]?
          = some State.Glory := by
  have hkeep : ∀ s : StateF, s.length = graph.num_vertices →
      (sync_step s graph g_node).1[g_node]? = s[g_node]? := fun s h =>
    (sync_fold_inv s graph g_node graph.num_vertices (le_of_eq h.symm)).2.2.1 g_node
      (Or.inr rfl)
  refine ⟨hkeep s0 hs, fun h => (hkeep s0 hs).trans h, ?_⟩
  rw [hkeep _ (by simp [initial_state])]
  simp [initial_state, List.getElem?_set, hg]

theorem sync_step_hub_entry_witness :
    (initial_state 3 0).length = pairGraph.num_vertices ∧ 0 < pairGraph.num_vertices
      ∧ ((sync_step (initial_state 3 0) pairGraph 0).1[0]? = (initial_state 3 0)[0]?
        ∧ ((initial_state 3 0)[0]? = some State.Glory →
            (sync_step (initial_state 3 0) pairGraph 0).1[0]? = some State.Glory)
        ∧ (sync_step (initial_state pairGraph.num_vertices 0) pairGraph 0).1[0]?
            = some State.Glory) :=
  ⟨by decide, by decide,
    sync_step_hub_entry (initial_state 3 0) pairGraph 0 (by decide) (by decide)⟩

/-- C11: for two state vectors of length `V` that agree at every index except possibly the
hub index, and every vertex `v`, `next_heaven` returns the same state: the result does not
depend on the raw hub entry of the vector passed in. -/
theorem next_heaven_ignores_hub_entry (s t : StateF) (v : Nat) (graph : Graph) (g_node : Nat)
    (hs : s.length = graph.num_vertices) (ht : t.length = graph.num_vertices)
    (hagree : ∀ i, i ≠ g_node → s[i]? = t[i]?) :
    next_heaven s v graph g_node = next_heaven t v graph g_node := by
  unfold next_heaven
  rw [force_g_eq_of_agree s t g_node (hs.trans ht.symm) hagree]

theorem next_heaven_ignores_hub_entry_witness :
    ([State.Gnash, State.Gnash, State.Gnash] : StateF).length = orderGraph.num_vertices
      ∧ ([State.Glory, State.Gnash, State.Gnash] : StateF).length = orderGraph.num_vertices
      ∧ (∀ i, i ≠ 0 → ([State.Gnash, State.Gnash, State.Gnash] : StateF)[i]?
          = ([State.Glory, State.Gnash, State.Gnash] : StateF)[i]?)
      ∧ next_heaven [State.Gnash, State.Gnash, State.Gnash] 1 orderGraph 0
          = next_heaven [State.Glory, State.Gnash, State.Gnash] 1 orderGraph 0
      ∧ next_heaven [State.Gnash, State.Gnash, State.Gnash] 1 orderGraph 0 = State.Glory := by
  have hagree : ∀ i, i ≠ 0 → ([State.Gnash, State.Gnash, State.Gnash] : StateF)[i]?
      = ([State.Glory, State.Gnash, State.Gnash] : StateF)[i]? := by
    intro i hi
    rcases i with _ | i
    · exact absurd rfl hi
    · rfl
  exact ⟨by decide, by decide, hagree,
    next_heaven_ignores_hub_entry [State.Gnash, State.Gnash, State.Gnash]
      [State.Glory, State.Gnash, State.Gnash] 1 orderGraph 0 (by decide) (by decide) hagree,
    by decide⟩

/-- Counterexample to C12 as stated: `restMaxGraph` has non-negative `int` weights and two
non-hub vertices; both loops of `rest_weight` add `2147483647` and `1` in an `int` and return
`-2147483648`, not the sum `2147483648`, and the computed `max_rest` is `0`, which is the
`rest_weight` of no vertex. -/
theorem max_rest_overflow_counterexample :
    restMaxGraph.NonNeg ∧ restMaxGraph.IntWeights
      ∧ (∃ v, v < restMaxGraph.num_vertices ∧ v ≠ 0)
      ∧ rest_weight 1 restMaxGraph 0 = -2147483648
      ∧ rest_weight 2 restMaxGraph 0 = -2147483648
      ∧ (∑ u ∈ (Finset.range restMaxGraph.num_vertices).filter (fun u => u ≠ 0),
          restMaxGraph.w u 1) = 2147483648
      ∧ max_rest restMaxGraph 0 = 0
      ∧ ¬ ∃ v, v < restMaxGraph.num_vertices ∧ v ≠ 0
          ∧ max_rest restMaxGraph 0 = rest_weight v restMaxGraph 0 := by
  refine ⟨by decide, by decide, ⟨1, by decide, by decide⟩, by decide, by decide, ?_,
    by decide, by decide⟩
  rw [Finset.sum_filter]
  simp [restMaxGraph, Graph.w, Finset.sum_range_succ]

/-- C12, amended: for a graph with at least one non-hub vertex and non-negative weights, every
column adding up to at most `INT_MAX`, `rest_weight v` is the sum over `u ≠ g` of `w[u][v]`,
and the computed `max_rest` is the maximum of `rest_weight` over the non-hub vertices: it
bounds `rest_weight v` for every non-hub `v` and equals `rest_weight v` for some non-hub `v`. -/
theorem max_rest_is_max (graph : Graph) (g_node : Nat) (hnn : graph.NonNeg)
    (hfit : graph.Fits) (hex : ∃ v, v < graph.num_vertices ∧ v ≠ g_node) :
    (∀ v, v < graph.num_vertices → rest_weight v graph g_node
        = ∑ u ∈ (Finset.range graph.num_vertices).filter (fun u => u ≠ g_node), graph.w u v)
      ∧ (∀ v, v < graph.num_vertices → v ≠ g_node →
          rest_weight v graph g_node ≤ max_rest graph g_node)
      ∧ ∃ v, v < graph.num_vertices ∧ v ≠ g_node
          ∧ max_rest graph g_node = rest_weight v graph g_node := by
  refine ⟨fun v hv => ?_, fun v hv hne => rest_weight_le_max_rest graph g_node v hv hne,
    max_rest_attained graph g_node hnn hfit hex⟩
  rw [rest_weight_eq_sum _ _ _ (hfit v hv), Finset.sum_filter]
  refine Finset.sum_congr rfl (fun u _ => ?_)
  by_cases hu : u = g_node <;> simp [hu]

theorem max_rest_is_max_witness :
    orderGraph.NonNeg ∧ orderGraph.Fits ∧ (∃ v, v < orderGraph.num_vertices ∧ v ≠ 0)
      ∧ max_rest orderGraph 0 = 5
      ∧ ((∀ v, v < orderGraph.num_vertices → rest_weight v orderGraph 0
          = ∑ u ∈ (Finset.range orderGraph.num_vertices).filter (fun u => u ≠ 0),
              orderGraph.w u v)
        ∧ (∀ v, v < orderGraph.num_vertices → v ≠ 0 →
            rest_weight v orderGraph 0 ≤ max_rest orderGraph 0)
        ∧ ∃ v, v < orderGraph.num_vertices ∧ v ≠ 0
            ∧ max_rest orderGraph 0 = rest_weight v orderGraph 0) :=
  ⟨by decide, by decide, ⟨1, by decide, by decide⟩, by decide,
    max_rest_is_max orderGraph 0 (by decide) (by decide) ⟨1, by decide, by decide⟩⟩

/-- C13: rewriting the hub row (`w[g][v] = W` for every non-hub `v`) leaves `rest_weight v`
unchanged for every vertex `v`, so `max_rest` recomputed on the rewritten graph, and on the
graph of any iteration of the sweep, equals the value computed before the sweep. -/
theorem max_rest_constant_across_sweep (graph : Graph) (g_node : Nat) (W : Int) :
    (∀ v, rest_weight v (set_hub_row graph g_node W) g_node = rest_weight v graph g_node)
      ∧ max_rest (set_hub_row graph g_node W) g_node = max_rest graph g_node
      ∧ ∀ n : Nat, max_rest (graph_at_step graph g_node n) g_node = max_rest graph g_node := by
  have hrow := set_hub_row_frame graph g_node W
  have hrest : ∀ v, rest_weight v (set_hub_row graph g_node W) g_node
      = rest_weight v graph g_node := fun v =>
    rest_weight_congr v _ _ g_node hrow.1 (fun a ha => hrow.2 a v ha)
  refine ⟨hrest, max_rest_congr _ _ g_node hrow.1 hrest, fun n => ?_⟩
  have hstep := graph_at_step_frame graph g_node n
  exact max_rest_congr _ _ g_node hstep.1
    (fun v => rest_weight_congr v _ _ g_node hstep.1 (fun a ha => hstep.2 a v ha))

/-- C14: the sweep prints exactly one line for each integer `W` from `w_min` to `w_max`
inclusive, in increasing order of `W` (the `W` column is `w_min, w_min + 1, ..., w_max`), and
prints no line when `w_min > w_max`. The loop stops by its own test `W <= w_max`: any fuel at
least the number of integers in `[w_min, w_max]` gives the same lines. -/
theorem sweep_one_record_per_W (graph : Graph) (g_node : Nat) (w_min w_max : Int)
    (shuffles : Int → List (List Nat)) :
    (sweep graph g_node w_min w_max shuffles).map (fun r => r.W)
        = (List.range (w_max + 1 - w_min).toNat).map (fun (i : Nat) => w_min + (i : Int))
      ∧ (sweep graph g_node w_min w_max shuffles).length = (w_max + 1 - w_min).toNat
      ∧ ((sweep graph g_node w_min w_max shuffles).map (fun r => r.W)).Pairwise (· < ·)
      ∧ (∀ W : Int, W ∈ (sweep graph g_node w_min w_max shuffles).map (fun r => r.W)
          ↔ w_min ≤ W ∧ W ≤ w_max)
      ∧ (w_max < w_min → sweep graph g_node w_min w_max shuffles = [])
      ∧ (∀ fuel, (w_max + 1 - w_min).toNat ≤ fuel →
          (sweep_loop g_node (max_rest graph g_node) shuffles w_max fuel w_min (graph, [])).2
            = sweep graph g_node w_min w_max shuffles) := by
  have hmap : (sweep graph g_node w_min w_max shuffles).map (fun r => r.W)
      = (List.range (w_max + 1 - w_min).toNat).map (fun (i : Nat) => w_min + (i : Int)) := by
    unfold sweep
    rw [sweep_loop_Ws _ _ _ _ _ _ _ (le_refl _)]
    simp
  have hlen : (sweep graph g_node w_min w_max shuffles).length = (w_max + 1 - w_min).toNat := by
    have := congrArg List.length hmap
    simpa using this
  refine ⟨hmap, hlen, ?_, ?_, ?_, ?_⟩
  · rw [hmap]
    refine List.Pairwise.map (fun (i : Nat) => w_min + (i : Int)) ?_
      (List.pairwise_lt_range _)
    intro a b hab
    show w_min + (a : Int) < w_min + (b : Int)
    omega
  · intro W
    rw [hmap, List.mem_map]
    constructor
    · rintro ⟨i, hi, rfl⟩
      have := List.mem_range.mp hi
      omega
    · rintro ⟨h1, h2⟩
      refine ⟨(W - w_min).toNat, List.mem_range.mpr ?_, ?_⟩ <;> omega
  · intro h
    apply List.eq_nil_of_length_eq_zero
    rw [hlen]
    omega
  · intro fuel hfuel
    unfold sweep
    rw [sweep_loop_fuel_stable _ _ _ _ fuel _ _ hfuel]

/-- Runs of the sweep on `pairGraph`: from `0` to `2` the lines are those of `W = 0, 1, 2` in
this order, from `2` to `4` those of `W = 2, 3, 4`, and from `0` to `-1` no line is printed. -/
theorem sweep_one_record_per_W_witness :
    (sweep pairGraph 0 0 2 (fun _ => [[1, 2], [2, 1]])).map (fun r => r.W) = [0, 1, 2]
      ∧ (sweep pairGraph 0 2 4 (fun _ => [[1, 2], [2, 1]])).map (fun r => r.W) = [2, 3, 4]
      ∧ (-1 : Int) < 0 ∧ sweep pairGraph 0 0 (-1) (fun _ => [[1, 2], [2, 1]]) = [] :=
  ⟨by decide, by decide, by decide,
    (sweep_one_record_per_W pairGraph 0 0 (-1) (fun _ => [[1, 2], [2, 1]])).2.2.2.2.1
      (by decide)⟩

/-- Counterexample to C16 as stated: for the graph with `V = 1` (the hub alone) the
synchronous step counts `0` vertices and the divisor `V - 1` of the fraction is `0`. -/
theorem glory_divisor_zero_counterexample :
    (Graph.new 1).WF ∧ (Graph.new 1).num_vertices = 1
      ∧ (initial_state 1 0).length = (Graph.new 1).num_vertices
      ∧ (sync_step (initial_state 1 0) (Graph.new 1) 0).2 = 0
      ∧ glory_divisor (Graph.new 1) = 0 := by
  decide

/-- C16, amended: the fraction of the synchronous step is `glory_count / (V - 1)`; its divisor
is zero exactly when `V = 1`, where the count is `0` as well; for `V ≥ 2` the divisor is
positive and the fraction lies between `0` and `1`. -/
theorem glory_fraction_divisor (s0 : StateF) (graph : Graph) (g_node : Nat)
    (hs : s0.length = graph.num_vertices) (hg : g_node < graph.num_vertices) :
    percent_glory_sync s0 graph g_node
        = ((sync_step s0 graph g_node).2 : ℚ) / (glory_divisor graph : ℚ)
      ∧ (glory_divisor graph = 0 ↔ graph.num_vertices = 1)
      ∧ (graph.num_vertices = 1 → (sync_step s0 graph g_node).2 = 0)
      ∧ (2 ≤ graph.num_vertices →
          0 < glory_divisor graph ∧ 0 ≤ percent_glory_sync s0 graph g_node
            ∧ percent_glory_sync s0 graph g_node ≤ 1) := by
  have hle := sync_count_le s0 graph g_node hs hg
  refine ⟨rfl, by unfold glory_divisor; omega, fun h1 => by omega, fun h2 => ?_⟩
  have hpos : 0 < glory_divisor graph := by unfold glory_divisor; omega
  have hposq : (0 : ℚ) < (glory_divisor graph : ℚ) := by exact_mod_cast hpos
  have hcount : ((sync_step s0 graph g_node).2 : ℚ) ≤ (glory_divisor graph : ℚ) := by
    have : ((sync_step s0 graph g_node).2 : Int) ≤ glory_divisor graph := by
      unfold glory_divisor
      omega
    exact_mod_cast this
  refine ⟨hpos, ?_, ?_⟩
  · exact div_nonneg (Nat.cast_nonneg _) (le_of_lt hposq)
  · exact (div_le_one hposq).mpr hcount

theorem glory_fraction_divisor_witness :
    (initial_state 3 0).length = (graph_at_step pairGraph 0 3).num_vertices
      ∧ 0 < (graph_at_step pairGraph 0 3).num_vertices
      ∧ 2 ≤ (graph_at_step pairGraph 0 3).num_vertices
      ∧ 0 < glory_divisor (graph_at_step pairGraph 0 3)
      ∧ 0 ≤ percent_glory_sync (initial_state 3 0) (graph_at_step pairGraph 0 3) 0
      ∧ percent_glory_sync (initial_state 3 0) (graph_at_step pairGraph 0 3) 0 ≤ 1 :=
  ⟨by decide, by decide, by decide,
    (glory_fraction_divisor (initial_state 3 0) (graph_at_step pairGraph 0 3) 0
      (by decide) (by decide)).2.2.2 (by decide)⟩

/-- C17: for `n ≥ 1` trials with any choice of the `n` update orders, `successful_trials` is
at most `n`, so `success_prob_async = successful_trials / n` is `k / n` for a natural number
`k ≤ n` and lies between `0` and `1`. -/
theorem success_prob_async_values (s0 : StateF) (orders : List (List Nat)) (graph : Graph)
    (g_node : Nat) (n : Nat) (hn : 1 ≤ n) (hlen : orders.length = n) :
    successful_trials s0 orders graph g_node ≤ n
      ∧ (∃ k : Nat, k ≤ n ∧ k = successful_trials s0 orders graph g_node
          ∧ success_prob_async s0 orders graph g_node = (k : ℚ) / (n : ℚ))
      ∧ 0 ≤ success_prob_async s0 orders graph g_node
      ∧ success_prob_async s0 orders graph g_node ≤ 1 := by
  have hle : successful_trials s0 orders graph g_node ≤ n :=
    hlen ▸ successful_trials_le s0 orders graph g_node
  have hprob : success_prob_async s0 orders graph g_node
      = (successful_trials s0 orders graph g_node : ℚ) / (n : ℚ) := by
    simp [success_prob_async, hlen]
  have hposq : (0 : ℚ) < (n : ℚ) := by exact_mod_cast hn
  refine ⟨hle, ⟨_, hle, rfl, hprob⟩, ?_, ?_⟩
  · rw [hprob]
    exact div_nonneg (Nat.cast_nonneg _) (le_of_lt hposq)
  · rw [hprob]
    exact (div_le_one hposq).mpr (by exact_mod_cast hle)

theorem success_prob_async_values_witness :
    1 ≤ 2 ∧ ([[1, 2], [2, 1]] : List (List Nat)).length = 2
      ∧ successful_trials (initial_state 3 0) [[1, 2], [2, 1]] orderGraph 0 = 1
      ∧ (successful_trials (initial_state 3 0) [[1, 2], [2, 1]] orderGraph 0 ≤ 2
        ∧ (∃ k : Nat, k ≤ 2
            ∧ k = successful_trials (initial_state 3 0) [[1, 2], [2, 1]] orderGraph 0
            ∧ success_prob_async (initial_state 3 0) [[1, 2], [2, 1]] orderGraph 0
                = (k : ℚ) / ((2 : Nat) : ℚ))
        ∧ 0 ≤ success_prob_async (initial_state 3 0) [[1, 2], [2, 1]] orderGraph 0
        ∧ success_prob_async (initial_state 3 0) [[1, 2], [2, 1]] orderGraph 0 ≤ 1) :=
  ⟨by decide, by decide, by decide,
    success_prob_async_values (initial_state 3 0) [[1, 2], [2, 1]] orderGraph 0 2
      (by decide) (by decide)⟩

/-- Counterexample to C15 as stated: at an index outside `[0,V)` the code returns a count or
a state and reports nothing. On the graph with `V = 0` the loop of `score` makes no iteration
and returns `0` for `v = 5`; on a graph with `V = 3`, `next_heaven` called with `v = 3` and hub
index `3` returns `Glory` at its first test. No read is made in either call. -/
theorem out_of_range_counterexample :
    (Graph.new 0).WF ∧ (Graph.new 0).num_vertices ≤ 5
      ∧ score_chk [] State.Gnash 5 (Graph.new 0) = some 0
      ∧ score [] State.Gnash 5 (Graph.new 0) = 0
      ∧ pairGraph.WF ∧ pairGraph.num_vertices ≤ 3
      ∧ next_heaven_chk [State.Glory, State.Gnash, State.Gnash] 3 pairGraph 3
          = some State.Glory
      ∧ next_heaven [State.Glory, State.Gnash, State.Gnash] 3 pairGraph 3 = State.Glory := by
  decide

/-- C15, amended: `score` and `next_heaven` check no index and have no `OutOfRange` result.
On a `V × V` graph with a state vector of length `V` and the hub in `[0,V)`: for `v` in
`[0,V)` every read is inside its vector and they return a count and a state; for `v ≥ V` the
first weight read `weights[0][v]` is outside its row (`none` in the checked functions), which
the source neither detects nor reports. -/
theorem transition_rule_reads (s : StateF) (x : State) (v : Nat) (graph : Graph)
    (g_node : Nat) (hwf : graph.WF) (hs : s.length = graph.num_vertices)
    (hg : g_node < graph.num_vertices) :
    (v < graph.num_vertices →
        score_chk s x v graph = some (score s x v graph)
          ∧ next_heaven_chk s v graph g_node = some (next_heaven s v graph g_node))
      ∧ (graph.num_vertices ≤ v →
        score_chk s x v graph = none ∧ next_heaven_chk s v graph g_node = none) := by
  constructor
  · intro hv
    exact ⟨score_chk_eq_some s x v graph hwf hs hv,
      next_heaven_chk_eq_some s v graph g_node hwf hs hg hv⟩
  · intro hv
    exact ⟨score_chk_eq_none s x v graph hwf (by omega) hv,
      next_heaven_chk_eq_none s v graph g_node hwf (by omega) hv (by omega)⟩

theorem transition_rule_reads_witness :
    (tieGraph 4).WF
      ∧ ([State.Glory, State.Gnash, State.Gnash] : StateF).length = (tieGraph 4).num_vertices
      ∧ 0 < (tieGraph 4).num_vertices ∧ 2 < (tieGraph 4).num_vertices
      ∧ score_chk [State.Glory, State.Gnash, State.Gnash] State.Gnash 2 (tieGraph 4)
          = some (score [State.Glory, State.Gnash, State.Gnash] State.Gnash 2 (tieGraph 4))
      ∧ next_heaven_chk [State.Glory, State.Gnash, State.Gnash] 2 (tieGraph 4) 0
          = some (next_heaven [State.Glory, State.Gnash, State.Gnash] 2 (tieGraph 4) 0)
      ∧ next_heaven [State.Glory, State.Gnash, State.Gnash] 2 (tieGraph 4) 0 = State.Gnash :=
  ⟨by decide, by decide, by decide, by decide,
    ((transition_rule_reads [State.Glory, State.Gnash, State.Gnash] State.Gnash 2 (tieGraph 4)
      0 (by decide) (by decide) (by decide)).1 (by decide)).1,
    ((transition_rule_reads [State.Glory, State.Gnash, State.Gnash] State.Gnash 2 (tieGraph 4)
      0 (by decide) (by decide) (by decide)).1 (by decide)).2,
    by decide⟩

/-- C18: for a graph with non-negative weights whose hub row holds the `int` `W` at every
non-hub vertex, one synchronous step from the canonical initial vector puts a non-hub vertex
`v` in `Glory` if and only if `W ≥ rest_weight v`; hence, when `V ≥ 2`, all non-hub vertices
are in `Glory`, that is `glory_count = V - 1`, if and only if `W ≥ max_rest`. Here
`rest_weight` and `max_rest` are the values the code computes, and no bound on the sums is
assumed. -/
theorem sharp_threshold (graph : Graph) (g_node : Nat) (W : Int) (hnn : graph.NonNeg)
    (hW : INT_MIN ≤ W ∧ W ≤ INT_MAX) (hg : g_node < graph.num_vertices)
    (hrow : ∀ v, v < graph.num_vertices → v ≠ g_node → graph.w g_node v = W) :
    (∀ v, v < graph.num_vertices → v ≠ g_node →
        ((sync_step (initial_state graph.num_vertices g_node) graph g_node).1[v]?
            = some State.Glory
          ↔ rest_weight v graph g_node ≤ W))
      ∧ (2 ≤ graph.num_vertices →
          (((∀ v, v < graph.num_vertices → v ≠ g_node →
              (sync_step (initial_state graph.num_vertices g_node) graph g_node).1[v]?
                = some State.Glory)
            ↔ max_rest graph g_node ≤ W)
          ∧ ((sync_step (initial_state graph.num_vertices g_node) graph g_node).2
                = graph.num_vertices - 1
            ↔ max_rest graph g_node ≤ W))) := by
  have hs := initial_state_length graph.num_vertices g_node
  have hvert : ∀ v, v < graph.num_vertices → v ≠ g_node →
      ((sync_step (initial_state graph.num_vertices g_node) graph g_node).1[v]?
          = some State.Glory
        ↔ rest_weight v graph g_node ≤ W) := by
    intro v hv hne
    rw [sync_entry_glory_iff _ graph g_node v hs hv hne,
      next_heaven_initial_iff graph g_node v hg hne, hrow v hv hne,
      wrap32_of_range hW.1 hW.2]
  refine ⟨hvert, fun hV => ?_⟩
  have hex : ∃ v, v < graph.num_vertices ∧ v ≠ g_node := by
    by_cases h0 : g_node = 0
    · exact ⟨1, by omega, by omega⟩
    · exact ⟨0, by omega, fun h => h0 h.symm⟩
  have hall : (∀ v, v < graph.num_vertices → v ≠ g_node →
        (sync_step (initial_state graph.num_vertices g_node) graph g_node).1[v]?
          = some State.Glory)
      ↔ max_rest graph g_node ≤ W := by
    constructor
    · intro h
      rcases foldl_max_attained (fun v => rest_weight v graph g_node) g_node 0
          graph.num_vertices with h0 | ⟨v, hv, hne, hmax⟩
      · have hm : max_rest graph g_node = 0 := h0
        obtain ⟨v0, hv0, hne0⟩ := hex
        have hw0 := Graph.w_nonneg hnn g_node v0
        rw [hrow v0 hv0 hne0] at hw0
        omega
      · have hm : max_rest graph g_node = rest_weight v graph g_node := hmax
        rw [hm]
        exact (hvert v hv hne).mp (h v hv hne)
    · intro h v hv hne
      have := rest_weight_le_max_rest graph g_node v hv hne
      exact (hvert v hv hne).mpr (by omega)
  refine ⟨hall, ?_⟩
  rw [← hall, sync_count_eq_iff _ graph g_node hs hg]
  constructor
  · intro h v hv hne
    exact (sync_entry_glory_iff _ graph g_node v hs hv hne).mpr (h v hv hne)
  · intro h v hv hne
    exact (sync_entry_glory_iff _ graph g_node v hs hv hne).mp (h v hv hne)

theorem sharp_threshold_witness :
    (graph_at_step orderGraph 0 4).NonNeg
      ∧ (INT_MIN ≤ 4 ∧ (4 : Int) ≤ INT_MAX)
      ∧ 0 < (graph_at_step orderGraph 0 4).num_vertices
      ∧ (∀ v, v < (graph_at_step orderGraph 0 4).num_vertices → v ≠ 0 →
          (graph_at_step orderGraph 0 4).w 0 v = 4)
      ∧ 2 ≤ (graph_at_step orderGraph 0 4).num_vertices
      ∧ rest_weight 1 (graph_at_step orderGraph 0 4) 0 = 1
      ∧ rest_weight 2 (graph_at_step orderGraph 0 4) 0 = 5
      ∧ max_rest (graph_at_step orderGraph 0 4) 0 = 5
      ∧ (sync_step (initial_state 3 0) (graph_at_step orderGraph 0 4) 0).1
          = [State.Glory, State.Glory, State.Gnash]
      ∧ ((sync_step (initial_state (graph_at_step orderGraph 0 4).num_vertices 0)
            (graph_at_step orderGraph 0 4) 0).2
              = (graph_at_step orderGraph 0 4).num_vertices - 1
          ↔ max_rest (graph_at_step orderGraph 0 4) 0 ≤ 4) :=
  ⟨by decide, by decide, by decide, by decide, by decide, by decide, by decide, by decide,
    by decide,
    ((sharp_threshold (graph_at_step orderGraph 0 4) 0 4 (by decide) (by decide) (by decide)
      (by decide)).2 (by decide)).2⟩

/-- Counterexample to C19 as stated: `hubMaxChainGraph` has non-negative `int` weights, hub
row `2147483647` and `w[1][2] = 1`. From the canonical initial vector the synchronous step
puts both non-hub vertices in `Glory`, but the asynchronous pass in the order `[1, 2]` leaves
vertex `2` in `Gnash`: once vertex `1` is `Glory` the `int` sum `2147483647 + 1` is negative. -/
theorem async_dominates_overflow_counterexample :
    hubMaxChainGraph.NonNeg ∧ hubMaxChainGraph.IntWeights
      ∧ ([1, 2] : List Nat).Perm (non_hubs hubMaxChainGraph.num_vertices 0)
      ∧ (sync_step (initial_state 3 0) hubMaxChainGraph 0).1
          = [State.Glory, State.Glory, State.Glory]
      ∧ (sync_step (initial_state 3 0) hubMaxChainGraph 0).2
          = hubMaxChainGraph.num_vertices - 1
      ∧ async_pass (initial_state 3 0) [1, 2] hubMaxChainGraph 0
          = [State.Glory, State.Glory, State.Gnash]
      ∧ (async_pass (initial_state 3 0) [1, 2] hubMaxChainGraph 0)[2]? ≠ some State.Glory
      ∧ all_glory (async_pass (initial_state 3 0) [1, 2] hubMaxChainGraph 0) [1, 2]
          = false := by
  decide

/-- C19, amended: for a graph with non-negative weights, every column adding up to at most
`INT_MAX`, and an order that is a permutation of the non-hub vertices, every non-hub vertex
that is in `Glory` after one synchronous step from the canonical initial vector is in `Glory`
after the asynchronous pass from the same vector; in particular, if the synchronous step puts
all non-hub vertices in `Glory` (`glory_count = V - 1`) then `all_glory` holds for the
order. -/
theorem async_dominates_sync (graph : Graph) (g_node : Nat) (order : List Nat)
    (hnn : graph.NonNeg) (hfit : graph.Fits) (hg : g_node < graph.num_vertices)
    (hperm : order.Perm (non_hubs graph.num_vertices g_node)) :
    (∀ v, v < graph.num_vertices → v ≠ g_node →
        (sync_step (initial_state graph.num_vertices g_node) graph g_node).1[v]?
          = some State.Glory →
        (async_pass (initial_state graph.num_vertices g_node) order graph g_node)[v]?
          = some State.Glory)
      ∧ ((∀ v, v < graph.num_vertices → v ≠ g_node →
          (sync_step (initial_state graph.num_vertices g_node) graph g_node).1[v]?
            = some State.Glory) →
        all_glory (async_pass (initial_state graph.num_vertices g_node) order graph g_node)
          order = true)
      ∧ ((sync_step (initial_state graph.num_vertices g_node) graph g_node).2
            = graph.num_vertices - 1 →
        all_glory (async_pass (initial_state graph.num_vertices g_node) order graph g_node)
          order = true) := by
  have hs := initial_state_length graph.num_vertices g_node
  have hmem : ∀ v, v ∈ order ↔ v < graph.num_vertices ∧ v ≠ g_node := fun v =>
    (hperm.mem_iff).trans (mem_non_hubs _ _ v)
  obtain ⟨hlen, hinv⟩ := async_pass_inv graph g_node hnn hfit hg order
    (fun w hw => ((hmem w).mp hw).1) (initial_state graph.num_vertices g_node) hs
  have hrd : ∀ v, v < graph.num_vertices → v ≠ g_node →
      next_heaven (initial_state graph.num_vertices g_node) v graph g_node = State.Glory →
      rd (async_pass (initial_state graph.num_vertices g_node) order graph g_node) v
        = State.Glory :=
    fun v hv hne h0 => hinv v h0 (Or.inl ((hmem v).mpr ⟨hv, hne⟩))
  have hall : (∀ v, v < graph.num_vertices → v ≠ g_node →
        next_heaven (initial_state graph.num_vertices g_node) v graph g_node = State.Glory) →
      all_glory (async_pass (initial_state graph.num_vertices g_node) order graph g_node)
        order = true := by
    intro h
    rw [all_glory_iff]
    intro v hv
    obtain ⟨hv1, hv2⟩ := (hmem v).mp hv
    exact hrd v hv1 hv2 (h v hv1 hv2)
  refine ⟨fun v hv hne hsync => ?_, fun h => ?_, fun h => ?_⟩
  · rw [← rd_eq_iff (by omega)]
    exact hrd v hv hne ((sync_entry_glory_iff _ graph g_node v hs hv hne).mp hsync)
  · exact hall (fun v hv hne => (sync_entry_glory_iff _ graph g_node v hs hv hne).mp
      (h v hv hne))
  · exact hall ((sync_count_eq_iff _ graph g_node hs hg).mp h)

theorem async_dominates_sync_witness :
    orderGraph.NonNeg ∧ orderGraph.Fits ∧ 0 < orderGraph.num_vertices
      ∧ ([2, 1] : List Nat).Perm (non_hubs orderGraph.num_vertices 0)
      ∧ (sync_step (initial_state 3 0) orderGraph 0).1[1]? = some State.Glory
      ∧ (async_pass (initial_state orderGraph.num_vertices 0) [2, 1] orderGraph 0)[1]?
          = some State.Glory :=
  ⟨by decide, by decide, by decide, by decide, by decide,
    (async_dominates_sync orderGraph 0 [2, 1] (by decide) (by decide) (by decide)
      (by decide)).1 1 (by decide) (by decide) (by decide)⟩

/-- Counterexample to C20 as stated: on `edgeGraph 2147483647` (non-negative `int` weights)
with every entry `Glory`, `next_heaven s 1` is `Gnash` (the `int` sum `2147483647 + 1` is
negative), so neither the synchronous step nor the asynchronous pass returns `s`, and
`all_glory` is `false`. -/
theorem all_glory_overflow_counterexample :
    (edgeGraph 2147483647).NonNeg ∧ (edgeGraph 2147483647).IntWeights
      ∧ ([State.Glory, State.Glory, State.Glory] : StateF).length = (edgeGraph 2147483647).num_vertices
      ∧ next_heaven [State.Glory, State.Glory, State.Glory] 1 (edgeGraph 2147483647) 0 = State.Gnash
      ∧ (sync_step [State.Glory, State.Glory, State.Glory] (edgeGraph 2147483647) 0).1
          = [State.Glory, State.Gnash, State.Glory]
      ∧ async_pass [State.Glory, State.Glory, State.Glory] [1, 2] (edgeGraph 2147483647) 0
          = [State.Glory, State.Gnash, State.Glory]
      ∧ all_glory (async_pass [State.Glory, State.Glory, State.Glory] [1, 2] (edgeGraph 2147483647) 0) [1, 2] = false := by
  decide

/-- C20, amended: for a graph with non-negative weights, every column adding up to at most
`INT_MAX`, and a state vector of length `V` whose every entry is `Glory`, `next_heaven s v` is
`Glory` for every vertex `v`; the synchronous step returns `s` unchanged and counts all
`V - 1` non-hub vertices, and the asynchronous pass, under any order of vertices, returns `s`
unchanged with `all_glory = true`. -/
theorem all_glory_fixed_point (s : StateF) (graph : Graph) (g_node : Nat) (order : List Nat)
    (hnn : graph.NonNeg) (hfit : graph.Fits) (hs : s.length = graph.num_vertices)
    (hg : g_node < graph.num_vertices) (hall : ∀ x ∈ s, x = State.Glory)
    (hord : ∀ w ∈ order, w < graph.num_vertices) :
    (∀ v, v < graph.num_vertices → next_heaven s v graph g_node = State.Glory)
      ∧ (sync_step s graph g_node).1 = s
      ∧ (sync_step s graph g_node).2 = graph.num_vertices - 1
      ∧ async_pass s order graph g_node = s
      ∧ all_glory (async_pass s order graph g_node) order = true := by
  have hnext : ∀ v, v < graph.num_vertices → next_heaven s v graph g_node = State.Glory :=
    fun v hv => next_heaven_all_glory s v graph g_node hnn (hfit v hv) hs hall
  have hasync := async_pass_all_glory s order graph g_node hnn hfit hs hall hord
  refine ⟨hnext, sync_step_all_glory s graph g_node hnn hfit hs hall,
    (sync_count_eq_iff s graph g_node hs hg).mpr (fun v hv _ => hnext v hv), hasync, ?_⟩
  rw [hasync, all_glory_iff]
  intro v hv
  exact rd_all_glory hall (by rw [hs]; exact hord v hv)

theorem all_glory_fixed_point_witness :
    orderGraph.NonNeg ∧ orderGraph.Fits
      ∧ ([State.Glory, State.Glory, State.Glory] : StateF).length = orderGraph.num_vertices
      ∧ 0 < orderGraph.num_vertices
      ∧ (∀ x ∈ ([State.Glory, State.Glory, State.Glory] : StateF), x = State.Glory)
      ∧ (∀ w ∈ ([2, 1] : List Nat), w < orderGraph.num_vertices)
      ∧ ((∀ v, v < orderGraph.num_vertices →
            next_heaven [State.Glory, State.Glory, State.Glory] v orderGraph 0 = State.Glory)
        ∧ (sync_step [State.Glory, State.Glory, State.Glory] orderGraph 0).1 = [State.Glory, State.Glory, State.Glory]
        ∧ (sync_step [State.Glory, State.Glory, State.Glory] orderGraph 0).2 = orderGraph.num_vertices - 1
        ∧ async_pass [State.Glory, State.Glory, State.Glory] [2, 1] orderGraph 0 = [State.Glory, State.Glory, State.Glory]
        ∧ all_glory (async_pass [State.Glory, State.Glory, State.Glory] [2, 1] orderGraph 0) [2, 1] = true) :=
  ⟨by decide, by decide, by decide, by decide, by decide, by decide,
    all_glory_fixed_point [State.Glory, State.Glory, State.Glory] orderGraph 0 [2, 1]
      (by decide) (by decide) (by decide) (by decide) (by decide) (by decide)⟩

end HeavenHell
